import Mathlib

/-!
Formal model of the `2018-rcv-audits` repository.

Two implementations of Maine's RCV (instant-runoff) tabulation rules are
modelled:

* `RcvTally` embeds `src/maine-rcv-code/v2-ballot-dictionary_based/rcv.py`,
  which works on a tally: a Python `dict` mapping each distinct ballot
  (a tuple of candidate-name strings) to its occurrence count.
* `RcvList` embeds the ballot-list-based `src/rcv.py` (only the parts where
  the two versions differ, namely `count_first_choices`).

Python dicts are insertion-ordered, so a dict is modelled as an association
list `List (key × value)`; `dict[k] = dict.get(k, 0) + c` updates the entry
in place when the key is present and appends a fresh entry otherwise, which
is exactly what `addEntry` does.

`Bptool` embeds `src/maine-rcv-code/v2-tally-dictionary-based/bptool.py`.
The numpy `RandomState` object is external library code; it is modelled as
an abstract type `RS` together with deterministic draw functions
(`RNG` structure below), which is faithful to numpy's guarantee that a
`RandomState` seeded from a given integer array yields a fixed, reproducible
stream of draws.  Python float arithmetic on the drawn values is modelled
over `ℚ`; none of the verified claims depends on the numeric values of the
draws, only on list lengths, error propagation and counting.
-/

/-- Decidable equality of `Except` values, needed to evaluate the embedded
functions on concrete inputs. -/
instance exceptDecEq {ε α : Type} [DecidableEq ε] [DecidableEq α] :
    DecidableEq (Except ε α) := fun x y =>
  match x, y with
  | Except.error a, Except.error b =>
    if h : a = b then Decidable.isTrue (by rw [h])
    else Decidable.isFalse (fun hh => by cases hh; exact h rfl)
  | Except.error _, Except.ok _ => Decidable.isFalse (fun hh => by cases hh)
  | Except.ok _, Except.error _ => Decidable.isFalse (fun hh => by cases hh)
  | Except.ok a, Except.ok b =>
    if h : a = b then Decidable.isTrue (by rw [h])
    else Decidable.isFalse (fun hh => by cases hh; exact h rfl)

namespace RcvTally

/-- A ballot is a tuple of candidate-name strings (`src` comment, lines 5-7). -/
abbrev Ballot := List String

/-- A tally is a Python dict from ballots to counts, i.e. an insertion-ordered
association list. -/
abbrev Tally := List (Ballot × Nat)

/-- Python's `d[k] = d[k] + c if k in d else c` on an insertion-ordered dict:
update the existing entry in place, otherwise append a new entry. -/
def addEntry {α : Type} [DecidableEq α] : List (α × Nat) → α → Nat → List (α × Nat)
  | [], k, c => [(k, c)]
  | (k', c') :: rest, k, c =>
    if k' = k then (k', c' + c) :: rest else (k', c') :: addEntry rest k c

/-- Keys of an association list (`dict.keys()`, in insertion order). -/
def keys {α β : Type} (l : List (α × β)) : List α := l.map Prod.fst

/-- Effect of `delete_name` (rcv.py lines 94-103) on a single ballot: if
`name` occurs, either truncate at the first occurrence (`delete_following`)
or drop every occurrence; otherwise the ballot is returned unchanged. -/
def removeName (ballot : Ballot) (name : String) (delete_following : Bool) : Ballot :=
  if name ∈ ballot then
    if delete_following then ballot.takeWhile (fun c => c ≠ name)
    else ballot.filter (fun c => c ≠ name)
  else ballot

/-- The common shape of `delete_name` and `delete_double_undervotes`
(rcv.py lines 59-68 and 94-108): rebuild the tally, transforming each ballot
by `f` and merging colliding ballots by summing their counts. -/
def mapKeysMerge (f : Ballot → Ballot) (tally : Tally) : Tally :=
  tally.foldl (fun acc p => addEntry acc (f p.1) p.2) []

/-- `delete_name(tally, name, delete_following)` from rcv.py lines 72-109. -/
def delete_name (tally : Tally) (name : String) (delete_following : Bool) : Tally :=
  mapKeysMerge (fun b => removeName b name delete_following) tally

/-- Position of the first double undervote in a ballot (index of the first
`i` with `ballot[i] = ballot[i+1] = 'undervote'`), or the ballot's length if
there is none — the value `double_uv_at` computed by the loop in rcv.py
lines 61-66. -/
def double_uv_at : Ballot → Nat
  | [] => 0
  | [_] => 1
  | a :: b :: rest =>
    if a = "undervote" ∧ b = "undervote" then 0 else 1 + double_uv_at (b :: rest)

/-- `delete_double_undervotes` from rcv.py lines 40-69: truncate each ballot
at its first double undervote. -/
def delete_double_undervotes (tally : Tally) : Tally :=
  mapKeysMerge (fun b => b.take (double_uv_at b)) tally

/-- `delete_undervotes` from rcv.py lines 112-132. -/
def delete_undervotes (tally : Tally) : Tally :=
  delete_name (delete_double_undervotes tally) "undervote" false

/-- `delete_overvotes` from rcv.py lines 135-153. -/
def delete_overvotes (tally : Tally) : Tally :=
  delete_name tally "overvote" true

/-- `clean` from rcv.py lines 326-339: overvote handling, then undervote
handling. -/
def clean (tally : Tally) : Tally :=
  delete_undervotes (delete_overvotes tally)

/-- `count_first_choices` from the tally-based rcv.py, lines 156-182: only
ballots of positive length contribute, and only to their first choice. -/
def count_first_choices (tally : Tally) : List (String × Nat) :=
  tally.foldl (fun d p =>
    match p.1 with
    | [] => d
    | f :: _ => addEntry d f p.2) []

/-- `tie_breaker_index` from rcv.py lines 185-209: the index of `name` in
the tie-break list, or the list's length when absent. -/
def tie_breaker_index (tie_breaker : List String) (name : String) : Nat :=
  if name ∈ tie_breaker then tie_breaker.indexOf name else tie_breaker.length

/-- Code-point comparison of two strings' character lists, the order Python
uses to compare `str` values (lexicographic on Unicode code points). -/
def charListLtB : List Char → List Char → Bool
  | _, [] => false
  | [], _ :: _ => true
  | c :: cs, d :: ds =>
    if c.toNat < d.toNat then true
    else if d.toNat < c.toNat then false
    else charListLtB cs ds

/-- Python's `<` on strings: lexicographic comparison by code point. -/
def strLt (s t : String) : Bool := charListLtB s.data t.data

/-- Python's `<` on the triples `(count, -tie_breaker_index, name)` built in
`rcv_round` (rcv.py line 258): lexicographic tuple comparison. -/
def tripleLt (x y : Nat × Int × String) : Bool :=
  if x.1 < y.1 then true
  else if y.1 < x.1 then false
  else if x.2.1 < y.2.1 then true
  else if y.2.1 < x.2.1 then false
  else strLt x.2.2 y.2.2

/-- The elimination key `(d[k], -tie_breaker_index(tie_breaker, k), k)` of
rcv.py line 258. -/
def elimKey (tie_breaker : List String) (x : String × Nat) : Nat × Int × String :=
  (x.2, -(tie_breaker_index tie_breaker x.1 : Int), x.1)

/-- First element of `sorted(E)`: the minimum of a nonempty list under the
lexicographic tuple order (Python's sort is total on these triples, so the
head of the sorted list is the unique minimum). -/
def minTriple (x : Nat × Int × String) (l : List (Nat × Int × String)) :
    Nat × Int × String :=
  l.foldl (fun m y => if tripleLt y m then y else m) x

/-- The only failure modes of the tabulator: the `assert len(d)>0` on
rcv.py line 245 (`exhausted`), and running out of fuel in the loop model of
`rcv_winner` (`outOfFuel`, an artifact of the embedding — the Python loop
simply keeps iterating). -/
inductive RcvError where
  | exhausted : RcvError
  | outOfFuel : RcvError
deriving DecidableEq

/-- The four components `(w, d, e, LL)` returned by `rcv_round`
(rcv.py lines 220-226): the winning choice or `None`, the dict of
first-choice counts, the eliminated candidate or `None`, and the tally with
the eliminated candidate removed, or `None`. -/
structure RoundResult where
  w : Option String
  d : List (String × Nat)
  e : Option String
  LL : Option Tally
deriving DecidableEq

/-- `rcv_round` from rcv.py lines 212-263.  Returns `(w, d, e, LL)`:
either a winner `w` with the count dict `d`, or no winner together with the
eliminated candidate `e` and the tally `LL = delete_name(tally, e)`.
The winner checks are, in order: all candidates eliminated (assert), a
single entry in `d`, a candidate holding all first-choice votes, and
otherwise elimination of `sorted(E)[0]`. -/
def rcv_round (tally : Tally) (tie_breaker : List String) :
    Except RcvError RoundResult :=
  match count_first_choices tally with
  | [] => Except.error RcvError.exhausted
  | [x] => Except.ok ⟨some x.1, [x], none, none⟩
  | p :: q :: rest =>
    let d := p :: q :: rest
    let total := (d.map Prod.snd).sum
    match d.find? (fun x => x.2 == total) with
    | some x => Except.ok ⟨some x.1, d, none, none⟩
    | none =>
      let e := (minTriple (elimKey tie_breaker p) ((q :: rest).map (elimKey tie_breaker))).2.2
      Except.ok ⟨none, d, some e, some (delete_name tally e false)⟩

/-- The `while True` loop of `rcv_winner` (rcv.py lines 266-323), with
explicit fuel bounding the number of rounds.  Each iteration runs
`rcv_round`; on a winner it returns, otherwise it continues with
`delete_name(LL, e)` exactly as line 323 does. -/
def rcv_winner_fuel (tie_breaker : List String) : Nat → Tally → Except RcvError String
  | 0, _ => Except.error RcvError.outOfFuel
  | Nat.succ n, tally =>
    match rcv_round tally tie_breaker with
    | Except.error err => Except.error err
    | Except.ok ⟨some w, _, _, _⟩ => Except.ok w
    | Except.ok ⟨none, _, eo, Lo⟩ =>
      match eo, Lo with
      | some e, some LL => rcv_winner_fuel tie_breaker n (delete_name LL e false)
      | _, _ => Except.error RcvError.outOfFuel

/-- Distinct candidates appearing anywhere in any ballot of the tally. -/
def choicesOf (tally : Tally) : Finset String :=
  tally.foldr (fun p acc => p.1.toFinset ∪ acc) ∅

/-! Association-list (Python dict) lemmas. -/

theorem mem_keys {α β : Type} (x : α) (l : List (α × β)) :
    x ∈ keys l ↔ ∃ c, (x, c) ∈ l := by
  simp only [keys, List.mem_map]
  constructor
  · rintro ⟨⟨a, c⟩, hp, he⟩
    cases he
    exact ⟨c, hp⟩
  · rintro ⟨c, hc⟩
    exact ⟨(x, c), hc, rfl⟩

theorem mem_keys_addEntry {α : Type} [DecidableEq α] (x k : α) (c : Nat) :
    ∀ t : List (α × Nat), x ∈ keys (addEntry t k c) ↔ x ∈ keys t ∨ x = k := by
  intro t
  induction t with
  | nil => simp [addEntry, keys]
  | cons hd tl ih =>
    obtain ⟨k', c'⟩ := hd
    by_cases h : k' = k
    · subst h
      simp [addEntry, keys]
      tauto
    · simp only [addEntry, if_neg h, keys, List.map_cons, List.mem_cons] at ih ⊢
      tauto

theorem nodup_keys_addEntry {α : Type} [DecidableEq α] (k : α) (c : Nat) :
    ∀ t : List (α × Nat), (keys t).Nodup → (keys (addEntry t k c)).Nodup := by
  intro t
  induction t with
  | nil => simp [addEntry, keys]
  | cons hd tl ih =>
    obtain ⟨k', c'⟩ := hd
    intro h
    by_cases hk : k' = k
    · subst hk
      simpa [addEntry, keys] using h
    · simp only [keys, List.map_cons, List.nodup_cons] at h
      simp only [addEntry, if_neg hk, keys, List.map_cons, List.nodup_cons]
      refine ⟨?_, ih h.2⟩
      intro hmem
      rcases (mem_keys_addEntry k' k c tl).mp hmem with h1 | h1
      · exact h.1 h1
      · exact hk h1

theorem keyval_unique {α β : Type} :
    ∀ (l : List (α × β)), (keys l).Nodup →
      ∀ {k : α} {a b : β}, (k, a) ∈ l → (k, b) ∈ l → a = b := by
  intro l
  induction l with
  | nil => intro _ k a b ha; cases ha
  | cons hd tl ih =>
    intro h k a b ha hb
    simp only [keys, List.map_cons, List.nodup_cons] at h
    rcases List.mem_cons.mp ha with ha' | ha'
    · rcases List.mem_cons.mp hb with hb' | hb'
      · rw [← ha'] at hb'
        exact ((Prod.ext_iff.mp hb').2).symm
      · exfalso
        apply h.1
        have hm : k ∈ keys tl := (mem_keys k tl).mpr ⟨b, hb'⟩
        rw [← ha']
        simpa [keys] using hm
    · rcases List.mem_cons.mp hb with hb' | hb'
      · exfalso
        apply h.1
        have hm : k ∈ keys tl := (mem_keys k tl).mpr ⟨a, ha'⟩
        rw [← hb']
        simpa [keys] using hm
      · exact ih h.2 ha' hb'

theorem addEntry_append {α : Type} [DecidableEq α] (k : α) (c : Nat) :
    ∀ t : List (α × Nat), k ∉ keys t → addEntry t k c = t ++ [(k, c)] := by
  intro t
  induction t with
  | nil => intro _; rfl
  | cons hd tl ih =>
    obtain ⟨k', c'⟩ := hd
    intro h
    simp only [keys, List.map_cons, List.mem_cons, not_or] at h
    have h' : ¬ k' = k := fun he => h.1 he.symm
    simp only [addEntry, if_neg h', List.cons_append, List.cons.injEq, true_and]
    exact ih (by simpa [keys] using h.2)

/-! Lemmas about the merging rebuild `mapKeysMerge` shared by `delete_name`
and `delete_double_undervotes`. -/

theorem keys_mapKeysMerge_fold (f : Ballot → Ballot) (x : Ballot) :
    ∀ (l : List (Ballot × Nat)) (init : Tally),
      (x ∈ keys (l.foldl (fun acc p => addEntry acc (f p.1) p.2) init) ↔
        x ∈ keys init ∨ ∃ p, p ∈ l ∧ x = f p.1) := by
  intro l
  induction l with
  | nil => simp
  | cons hd tl ih =>
    intro init
    simp only [List.foldl_cons]
    rw [ih (addEntry init (f hd.1) hd.2), mem_keys_addEntry]
    simp only [List.mem_cons]
    constructor
    · rintro ((h | h) | ⟨p, hp, he⟩)
      · exact Or.inl h
      · exact Or.inr ⟨hd, Or.inl rfl, h⟩
      · exact Or.inr ⟨p, Or.inr hp, he⟩
    · rintro (h | ⟨p, hp | hp, he⟩)
      · exact Or.inl (Or.inl h)
      · subst hp
        exact Or.inl (Or.inr he)
      · exact Or.inr ⟨p, hp, he⟩

theorem mem_keys_mapKeysMerge (f : Ballot → Ballot) (x : Ballot) (t : Tally) :
    x ∈ keys (mapKeysMerge f t) ↔ ∃ p, p ∈ t ∧ x = f p.1 := by
  rw [mapKeysMerge, keys_mapKeysMerge_fold]
  simp [keys]

theorem nodup_keys_mapKeysMerge_fold (f : Ballot → Ballot) :
    ∀ (l : List (Ballot × Nat)) (init : Tally),
      (keys init).Nodup →
      (keys (l.foldl (fun acc p => addEntry acc (f p.1) p.2) init)).Nodup := by
  intro l
  induction l with
  | nil => intro init h; exact h
  | cons hd tl ih =>
    intro init h
    exact ih _ (nodup_keys_addEntry _ _ _ h)

theorem nodup_keys_mapKeysMerge (f : Ballot → Ballot) (t : Tally) :
    (keys (mapKeysMerge f t)).Nodup :=
  nodup_keys_mapKeysMerge_fold f t [] (by simp [keys])

theorem mapKeysMerge_fold_append (f : Ballot → Ballot) :
    ∀ (l : List (Ballot × Nat)) (init : Tally),
      (keys l).Nodup → (∀ p ∈ l, f p.1 = p.1) →
      (∀ x ∈ keys l, x ∉ keys init) →
      l.foldl (fun acc p => addEntry acc (f p.1) p.2) init = init ++ l := by
  intro l
  induction l with
  | nil => intro init _ _ _; simp
  | cons hd tl ih =>
    intro init hnd hfix hdisj
    obtain ⟨b, c⟩ := hd
    simp only [keys, List.map_cons, List.nodup_cons] at hnd
    have hfb : f b = b := hfix (b, c) (List.mem_cons_self _ _)
    have hbinit : b ∉ keys init := hdisj b (by simp [keys])
    simp only [List.foldl_cons, hfb]
    rw [addEntry_append b c init hbinit]
    rw [ih (init ++ [(b, c)]) hnd.2 (fun p hp => hfix p (List.mem_cons_of_mem _ hp)) ?_]
    · simp
    · intro x hx
      have hxb : x ≠ b := fun he => hnd.1 (he ▸ hx)
      have hxinit : x ∉ keys init := hdisj x (by simp [keys]; exact Or.inr (by simpa [keys] using hx))
      simp only [keys, List.map_append, List.mem_append, List.map_cons, List.map_nil,
        List.mem_singleton]
      rintro (h | h)
      · exact hxinit (by simpa [keys] using h)
      · exact hxb h

theorem mapKeysMerge_id (f : Ballot → Ballot) (t : Tally)
    (hnd : (keys t).Nodup) (hfix : ∀ p ∈ t, f p.1 = p.1) :
    mapKeysMerge f t = t := by
  rw [mapKeysMerge, mapKeysMerge_fold_append f t [] hnd hfix (by simp [keys])]
  simp

/-! Lemmas about `count_first_choices`. -/

theorem keys_cfc_fold (x : String) :
    ∀ (l : List (Ballot × Nat)) (init : List (String × Nat)),
      (x ∈ keys (l.foldl (fun d p =>
          match p.1 with
          | [] => d
          | f :: _ => addEntry d f p.2) init) ↔
        x ∈ keys init ∨ ∃ p, p ∈ l ∧ p.1.head? = some x) := by
  intro l
  induction l with
  | nil => simp
  | cons hd tl ih =>
    intro init
    simp only [List.foldl_cons]
    rcases hb : hd.1 with _ | ⟨f, rest⟩
    · rw [ih init]
      simp only [List.mem_cons]
      constructor
      · rintro (h | ⟨p, hp, he⟩)
        · exact Or.inl h
        · exact Or.inr ⟨p, Or.inr hp, he⟩
      · rintro (h | ⟨p, hp | hp, he⟩)
        · exact Or.inl h
        · subst hp
          rw [hb] at he
          cases he
        · exact Or.inr ⟨p, hp, he⟩
    · rw [ih (addEntry init f hd.2), mem_keys_addEntry]
      simp only [List.mem_cons]
      constructor
      · rintro ((h | h) | ⟨p, hp, he⟩)
        · exact Or.inl h
        · exact Or.inr ⟨hd, Or.inl rfl, by rw [hb, List.head?_cons, h]⟩
        · exact Or.inr ⟨p, Or.inr hp, he⟩
      · rintro (h | ⟨p, hp | hp, he⟩)
        · exact Or.inl (Or.inl h)
        · subst hp
          rw [hb, List.head?_cons] at he
          exact Or.inl (Or.inr (Option.some.inj he).symm)
        · exact Or.inr ⟨p, hp, he⟩

theorem mem_keys_cfc (x : String) (t : Tally) :
    x ∈ keys (count_first_choices t) ↔ ∃ p, p ∈ t ∧ p.1.head? = some x := by
  rw [count_first_choices, keys_cfc_fold]
  simp [keys]

theorem nodup_keys_cfc (t : Tally) : (keys (count_first_choices t)).Nodup := by
  rw [count_first_choices]
  have haux : ∀ (l : List (Ballot × Nat)) (init : List (String × Nat)),
      (keys init).Nodup →
      (keys (l.foldl (fun d p =>
        match p.1 with
        | [] => d
        | f :: _ => addEntry d f p.2) init)).Nodup := by
    intro l
    induction l with
    | nil => intro init h; exact h
    | cons hd tl ih =>
      intro init h
      simp only [List.foldl_cons]
      rcases hb : hd.1 with _ | ⟨f, rest⟩
      · exact ih init h
      · exact ih _ (nodup_keys_addEntry _ _ _ h)
  exact haux t [] (by simp [keys])

theorem cfc_ne_nil (t : Tally) (h : ∃ p, p ∈ t ∧ p.1 ≠ []) :
    count_first_choices t ≠ [] := by
  obtain ⟨p, hp, hne⟩ := h
  rcases hb : p.1 with _ | ⟨f, rest⟩
  · exact absurd hb hne
  · intro hnil
    have : f ∈ keys (count_first_choices t) :=
      (mem_keys_cfc f t).mpr ⟨p, hp, by rw [hb, List.head?_cons]⟩
    rw [hnil] at this
    simp [keys] at this

/-! Lemmas about `removeName` and `double_uv_at`. -/

theorem mem_removeName {x : String} {b : Ballot} {n : String} {df : Bool}
    (h : x ∈ removeName b n df) : x ∈ b ∧ x ≠ n := by
  rw [removeName] at h
  by_cases hm : n ∈ b
  · rw [if_pos hm] at h
    cases df with
    | true =>
      rw [if_pos rfl] at h
      refine ⟨List.takeWhile_subset _ h, ?_⟩
      have := List.mem_takeWhile_imp h
      simpa using this
    | false =>
      rw [if_neg (by simp)] at h
      rw [List.mem_filter] at h
      refine ⟨h.1, by simpa using h.2⟩
  · rw [if_neg hm] at h
    exact ⟨h, fun he => hm (he ▸ h)⟩

theorem not_mem_removeName (b : Ballot) (n : String) (df : Bool) :
    n ∉ removeName b n df := fun h => (mem_removeName h).2 rfl

theorem removeName_id {b : Ballot} {n : String} (df : Bool) (h : n ∉ b) :
    removeName b n df = b := by
  rw [removeName, if_neg h]

theorem removeName_cons_of_ne (c : String) (bs : Ballot) {n : String} (h : c ≠ n) :
    ∃ tl, removeName (c :: bs) n false = c :: tl := by
  rw [removeName]
  by_cases hm : n ∈ c :: bs
  · rw [if_pos hm]
    simp only [Bool.false_eq_true, if_neg]
    rw [List.filter_cons_of_pos (by simpa using h)]
    exact ⟨List.filter (fun x => x ≠ n) bs, rfl⟩
  · rw [if_neg hm]
    exact ⟨bs, rfl⟩

theorem double_uv_at_of_not_mem :
    ∀ (b : Ballot), "undervote" ∉ b → double_uv_at b = b.length := by
  intro b
  induction b with
  | nil => intro _; rfl
  | cons a tl ih =>
    intro h
    simp only [List.mem_cons, not_or] at h
    rcases tl with _ | ⟨b', rest⟩
    · rfl
    · have ha : ¬(a = "undervote" ∧ b' = "undervote") := fun hc => h.1 hc.1.symm
      simp only [double_uv_at, if_neg ha]
      rw [ih (by simpa using h.2)]
      simp [List.length_cons]
      omega

/-! The boolean code-point comparison agrees with the lexicographic string
order. -/

theorem char_eq_of_toNat_eq {c d : Char} (h : c.toNat = d.toNat) : c = d := by
  have h1 : ¬ c.toNat < d.toNat := by omega
  have h2 : ¬ d.toNat < c.toNat := by omega
  rcases lt_trichotomy c d with h3 | h3 | h3
  · exact absurd (Char.lt_def.mp h3) h1
  · exact h3
  · exact absurd (Char.lt_def.mp h3) h2

theorem charListLtB_iff_lex :
    ∀ (cs ds : List Char), charListLtB cs ds = true ↔ List.Lex (· < ·) cs ds := by
  intro cs
  induction cs with
  | nil =>
    intro ds
    cases ds with
    | nil =>
      simp only [charListLtB, Bool.false_eq_true, false_iff]
      exact List.Lex.not_nil_right _ _
    | cons d ds =>
      simp only [charListLtB, true_iff]
      exact List.Lex.nil
  | cons c cs ih =>
    intro ds
    cases ds with
    | nil =>
      simp only [charListLtB, Bool.false_eq_true, false_iff]
      exact List.Lex.not_nil_right _ _
    | cons d ds =>
      simp only [charListLtB]
      by_cases h1 : c.toNat < d.toNat
      · simp only [if_pos h1, true_iff]
        exact List.Lex.rel (Char.lt_def.mpr h1)
      · by_cases h2 : d.toNat < c.toNat
        · simp only [if_neg h1, if_pos h2, Bool.false_eq_true, false_iff]
          intro hlex
          cases hlex with
          | rel hr => exact h1 (Char.lt_def.mp hr)
          | cons _ => exact h1 h2
        · have hcd : c = d := char_eq_of_toNat_eq (by omega)
          subst hcd
          simp only [if_neg h1, if_neg h2]
          rw [ih ds]
          exact (List.Lex.cons_iff (r := (· < ·))).symm

theorem strLt_true_iff (s t : String) : strLt s t = true ↔ s < t := by
  rw [strLt, charListLtB_iff_lex]
  rw [String.lt_iff_toList_lt]
  exact Iff.rfl

theorem strLt_false_iff (s t : String) : strLt s t = false ↔ ¬ s < t := by
  rw [← strLt_true_iff]
  cases h : strLt s t <;> simp

/-! Lemmas about the triple comparison and its minimum. -/

theorem tripleLt_true_iff (x y : Nat × Int × String) :
    tripleLt x y = true ↔
      (x.1 < y.1 ∨ (x.1 = y.1 ∧
        (x.2.1 < y.2.1 ∨ (x.2.1 = y.2.1 ∧ x.2.2 < y.2.2)))) := by
  rw [tripleLt]
  by_cases h1 : x.1 < y.1
  · simp only [if_pos h1, true_iff]
    exact Or.inl h1
  · by_cases h2 : y.1 < x.1
    · simp only [if_neg h1, if_pos h2, Bool.false_eq_true, false_iff]
      rintro (h | ⟨he, _⟩)
      · exact h1 h
      · omega
    · have he1 : x.1 = y.1 := by omega
      by_cases h3 : x.2.1 < y.2.1
      · simp only [if_neg h1, if_neg h2, if_pos h3, true_iff]
        exact Or.inr ⟨he1, Or.inl h3⟩
      · by_cases h4 : y.2.1 < x.2.1
        · simp only [if_neg h1, if_neg h2, if_neg h3, if_pos h4, Bool.false_eq_true, false_iff]
          rintro (h | ⟨_, h | ⟨he, _⟩⟩)
          · exact h1 h
          · exact h3 h
          · omega
        · have he2 : x.2.1 = y.2.1 := by omega
          simp only [if_neg h1, if_neg h2, if_neg h3, if_neg h4]
          rw [strLt_true_iff]
          constructor
          · intro h
            exact Or.inr ⟨he1, Or.inr ⟨he2, h⟩⟩
          · rintro (h | ⟨_, h | ⟨_, h⟩⟩)
            · exact absurd h h1
            · exact absurd h h3
            · exact h

theorem tripleLt_false_iff (x y : Nat × Int × String) :
    tripleLt x y = false ↔
      ¬ (x.1 < y.1 ∨ (x.1 = y.1 ∧
        (x.2.1 < y.2.1 ∨ (x.2.1 = y.2.1 ∧ x.2.2 < y.2.2)))) := by
  rw [← tripleLt_true_iff]
  cases h : tripleLt x y <;> simp

theorem tripleLt_irrefl (x : Nat × Int × String) : tripleLt x x = false := by
  rw [tripleLt_false_iff]
  rintro (h | ⟨_, h | ⟨_, h⟩⟩)
  · exact lt_irrefl _ h
  · exact lt_irrefl _ h
  · exact lt_irrefl _ h

theorem tripleLt_trans {x y z : Nat × Int × String}
    (hxy : tripleLt x y = true) (hyz : tripleLt y z = true) :
    tripleLt x z = true := by
  rw [tripleLt_true_iff] at hxy hyz ⊢
  rcases hxy with h | ⟨e1, hxy⟩
  · rcases hyz with h' | ⟨e1', _⟩
    · exact Or.inl (lt_trans h h')
    · exact Or.inl (e1' ▸ h)
  · rcases hyz with h' | ⟨e1', hyz⟩
    · exact Or.inl (e1 ▸ h')
    · refine Or.inr ⟨e1.trans e1', ?_⟩
      rcases hxy with h | ⟨e2, hxy⟩
      · rcases hyz with h' | ⟨e2', _⟩
        · exact Or.inl (lt_trans h h')
        · exact Or.inl (e2' ▸ h)
      · rcases hyz with h' | ⟨e2', hyz⟩
        · exact Or.inl (e2 ▸ h')
        · exact Or.inr ⟨e2.trans e2', lt_trans hxy hyz⟩

theorem tripleLt_trans_not {x y z : Nat × Int × String}
    (hxy : tripleLt x y = true) (hzy : tripleLt z y = false) :
    tripleLt x z = true := by
  rw [tripleLt_true_iff] at hxy ⊢
  rw [tripleLt_false_iff] at hzy
  push_neg at hzy
  obtain ⟨hn1, hn2⟩ := hzy
  rcases hxy with h | ⟨e1, hxy⟩
  · rcases Nat.lt_or_ge y.1 z.1 with hc | hc
    · exact Or.inl (lt_trans h hc)
    · have he : y.1 = z.1 := by omega
      exact Or.inl (he ▸ h)
  · have hy1 : y.1 ≤ z.1 := by omega
    rcases Nat.lt_or_ge y.1 z.1 with hc | hc
    · exact Or.inl (by omega)
    · have he : y.1 = z.1 := by omega
      refine Or.inr ⟨by omega, ?_⟩
      have hn2' := hn2 (by omega)
      obtain ⟨hm1, hm2⟩ := hn2'
      rcases hxy with h | ⟨e2, hxy⟩
      · rcases Int.lt_or_le y.2.1 z.2.1 with hc2 | hc2
        · exact Or.inl (lt_trans h hc2)
        · have he2 : y.2.1 = z.2.1 := by omega
          exact Or.inl (he2 ▸ h)
      · rcases Int.lt_or_le y.2.1 z.2.1 with hc2 | hc2
        · exact Or.inl (by omega)
        · have he2 : y.2.1 = z.2.1 := by omega
          refine Or.inr ⟨by omega, ?_⟩
          have hm2' := hm2 (by omega)
          have hle : y.2.2 ≤ z.2.2 := le_of_not_lt hm2'
          exact lt_of_lt_of_le hxy hle

theorem minTriple_cons (x y : Nat × Int × String) (ys : List (Nat × Int × String)) :
    minTriple x (y :: ys) = if tripleLt y x then minTriple y ys else minTriple x ys := by
  rw [minTriple, List.foldl_cons]
  by_cases h : tripleLt y x
  · rw [if_pos h, if_pos h, minTriple]
  · rw [if_neg h, if_neg h, minTriple]

theorem minTriple_mem :
    ∀ (l : List (Nat × Int × String)) (x : Nat × Int × String),
      minTriple x l ∈ x :: l := by
  intro l
  induction l with
  | nil => intro x; simp [minTriple]
  | cons y ys ih =>
    intro x
    rw [minTriple_cons]
    by_cases h : tripleLt y x
    · rw [if_pos h]
      rcases List.mem_cons.mp (ih y) with h' | h'
      · rw [h']; simp
      · simp [h']
    · rw [if_neg h]
      rcases List.mem_cons.mp (ih x) with h' | h'
      · rw [h']; simp
      · simp [h']

theorem minTriple_min :
    ∀ (l : List (Nat × Int × String)) (x : Nat × Int × String),
      ∀ y ∈ x :: l, tripleLt y (minTriple x l) = false := by
  intro l
  induction l with
  | nil =>
    intro x y hy
    have hyx : y = x := by simpa using hy
    rw [hyx]
    simpa [minTriple] using tripleLt_irrefl x
  | cons z t ih =>
    intro x y hy
    rw [minTriple_cons]
    by_cases hc : tripleLt z x
    · rw [if_pos hc]
      rcases List.mem_cons.mp hy with hy' | hy'
      · subst hy'
        by_contra hxm
        have hxm' : tripleLt y (minTriple z t) = true := by
          cases hq : tripleLt y (minTriple z t)
          · exact absurd hq hxm
          · rfl
        have hhm : tripleLt z (minTriple z t) = false :=
          ih z z (List.mem_cons_self _ _)
        have hcon := tripleLt_trans hc hxm'
        rw [hcon] at hhm
        cases hhm
      · exact ih z y hy'
    · rw [if_neg hc]
      rcases List.mem_cons.mp hy with hy' | hy'
      · rw [hy']
        exact ih x x (List.mem_cons_self _ _)
      · rcases List.mem_cons.mp hy' with hy'' | hy''
        · subst hy''
          by_contra hxm
          have hxm' : tripleLt y (minTriple x t) = true := by
            cases hq : tripleLt y (minTriple x t)
            · exact absurd hq hxm
            · rfl
          have hxmin : tripleLt x (minTriple x t) = false :=
            ih x x (List.mem_cons_self _ _)
          exact hc (tripleLt_trans_not hxm' hxmin)
        · exact ih x y (List.mem_cons.mpr (Or.inr hy''))

/-! Tokens absent from cleaned ballots. -/

theorem keys_delete_name_no_token (t : Tally) (n : String) (df : Bool) :
    ∀ b ∈ keys (delete_name t n df), n ∉ b := by
  intro b hb
  rw [delete_name] at hb
  obtain ⟨p, _, he⟩ := (mem_keys_mapKeysMerge _ b t).mp hb
  rw [he]
  exact not_mem_removeName _ _ _

theorem keys_delete_name_preserve (t : Tally) (n m : String) (df : Bool)
    (h : ∀ b ∈ keys t, m ∉ b) :
    ∀ b ∈ keys (delete_name t n df), m ∉ b := by
  intro b hb
  rw [delete_name] at hb
  obtain ⟨p, hp, he⟩ := (mem_keys_mapKeysMerge _ b t).mp hb
  rw [he]
  intro hm
  exact h p.1 ((mem_keys p.1 t).mpr ⟨p.2, hp⟩) (mem_removeName hm).1

theorem keys_ddu_preserve (t : Tally) (m : String)
    (h : ∀ b ∈ keys t, m ∉ b) :
    ∀ b ∈ keys (delete_double_undervotes t), m ∉ b := by
  intro b hb
  rw [delete_double_undervotes] at hb
  obtain ⟨p, hp, he⟩ := (mem_keys_mapKeysMerge _ b t).mp hb
  rw [he]
  intro hm
  exact h p.1 ((mem_keys p.1 t).mpr ⟨p.2, hp⟩) (List.take_subset _ _ hm)

theorem keys_clean_no_overvote (t : Tally) :
    ∀ b ∈ keys (clean t), "overvote" ∉ b := by
  rw [clean, delete_undervotes]
  apply keys_delete_name_preserve
  apply keys_ddu_preserve
  rw [delete_overvotes]
  apply keys_delete_name_no_token

theorem keys_clean_no_undervote (t : Tally) :
    ∀ b ∈ keys (clean t), "undervote" ∉ b := by
  rw [clean, delete_undervotes]
  apply keys_delete_name_no_token

theorem nodup_keys_clean (t : Tally) : (keys (clean t)).Nodup := by
  rw [clean, delete_undervotes, delete_name]
  exact nodup_keys_mapKeysMerge _ _

/-- Characterization of the elimination branch of `rcv_round`: when no
winner is declared, the count dict is `count_first_choices tally` with at
least two entries, and the eliminated candidate is the name component of
the minimal triple `(count, -tie_breaker_index, name)`, which therefore
compares no-greater than the triple of every entry of the count dict. -/
theorem rcv_round_elim_spec (t : Tally) (tb : List String) (rr : RoundResult)
    (h : rcv_round t tb = Except.ok rr) (hw : rr.w = none) :
    rr.d = count_first_choices t ∧ 2 ≤ rr.d.length ∧
      ∃ x, x ∈ rr.d ∧ rr.e = some x.1 ∧ rr.LL = some (delete_name t x.1 false) ∧
        ∀ p ∈ rr.d, tripleLt (elimKey tb p) (elimKey tb x) = false := by
  unfold rcv_round at h
  rcases hc : count_first_choices t with _ | ⟨p, _ | ⟨q, rest⟩⟩ <;> rw [hc] at h
  · cases h
  · simp only [] at h
    injection h with h'
    rw [← h'] at hw
    simp at hw
  · simp only [] at h
    rcases hfind : (p :: q :: rest).find?
        (fun x => x.2 == ((p :: q :: rest).map Prod.snd).sum) with _ | x <;>
      rw [hfind] at h <;> simp only [] at h
    · injection h with h'
      rw [← h']
      refine ⟨rfl, by simp, ?_⟩
      have hmem := minTriple_mem ((q :: rest).map (elimKey tb)) (elimKey tb p)
      have hmem' : minTriple (elimKey tb p) ((q :: rest).map (elimKey tb)) ∈
          (p :: q :: rest).map (elimKey tb) := by
        simpa using hmem
      obtain ⟨x, hx, hex⟩ := List.mem_map.mp hmem'
      refine ⟨x, hx, ?_, ?_, ?_⟩
      · show some (minTriple (elimKey tb p) ((q :: rest).map (elimKey tb))).2.2 = some x.1
        rw [← hex]
        rfl
      · show some (delete_name t
            (minTriple (elimKey tb p) ((q :: rest).map (elimKey tb))).2.2 false)
          = some (delete_name t x.1 false)
        rw [← hex]
        rfl
      · intro p' hp'
        have hmm := minTriple_min ((q :: rest).map (elimKey tb)) (elimKey tb p)
          (elimKey tb p') (by simpa using List.mem_map_of_mem (elimKey tb) hp')
        rw [← hex] at hmm
        exact hmm
    · injection h with h'
      rw [← h'] at hw
      simp at hw

/-- The only error `rcv_round` can raise is the exhaustion assert, and it is
raised exactly when the first-choice count dict is empty. -/
theorem rcv_round_error_spec (t : Tally) (tb : List String) (err : RcvError)
    (h : rcv_round t tb = Except.error err) :
    err = RcvError.exhausted ∧ count_first_choices t = [] := by
  unfold rcv_round at h
  rcases hc : count_first_choices t with _ | ⟨p, _ | ⟨q, rest⟩⟩ <;> rw [hc] at h
  · simp only [] at h
    exact ⟨(Except.error.inj h).symm, rfl⟩
  · simp only [] at h
    cases h
  · simp only [] at h
    rcases hfind : (p :: q :: rest).find?
        (fun x => x.2 == ((p :: q :: rest).map Prod.snd).sum) with _ | x <;>
      rw [hfind] at h <;> simp only [] at h <;> cases h

theorem rcv_round_exhausted_iff (t : Tally) (tb : List String) :
    rcv_round t tb = Except.error RcvError.exhausted ↔
      count_first_choices t = [] := by
  constructor
  · intro h
    exact (rcv_round_error_spec t tb RcvError.exhausted h).2
  · intro h
    unfold rcv_round
    rw [h]

/-! The candidate set of a tally, and how the tabulator shrinks it. -/

theorem mem_choicesOf (x : String) :
    ∀ t : Tally, x ∈ choicesOf t ↔ ∃ p, p ∈ t ∧ x ∈ p.1 := by
  intro t
  induction t with
  | nil => simp [choicesOf]
  | cons hd tl ih =>
    have hstep : choicesOf (hd :: tl) = hd.1.toFinset ∪ choicesOf tl := rfl
    rw [hstep, Finset.mem_union, List.mem_toFinset, ih]
    constructor
    · rintro (h | ⟨p, hp, hx⟩)
      · exact ⟨hd, List.mem_cons_self _ _, h⟩
      · exact ⟨p, List.mem_cons_of_mem _ hp, hx⟩
    · rintro ⟨p, hp, hx⟩
      rcases List.mem_cons.mp hp with h | h
      · subst h
        exact Or.inl hx
      · exact Or.inr ⟨p, h, hx⟩

theorem mem_choicesOf_delete_name {x : String} {t : Tally} {e : String} {df : Bool}
    (h : x ∈ choicesOf (delete_name t e df)) : x ∈ choicesOf t ∧ x ≠ e := by
  rw [mem_choicesOf] at h
  obtain ⟨p, hp, hx⟩ := h
  have hk : p.1 ∈ keys (delete_name t e df) := (mem_keys _ _).mpr ⟨p.2, hp⟩
  rw [delete_name] at hk
  obtain ⟨p0, hp0, he0⟩ := (mem_keys_mapKeysMerge _ _ t).mp hk
  rw [he0] at hx
  have hmr := mem_removeName hx
  exact ⟨(mem_choicesOf x t).mpr ⟨p0, hp0, hmr.1⟩, hmr.2⟩

theorem choicesOf_of_mem_cfc {c : String} {t : Tally}
    (h : c ∈ keys (count_first_choices t)) : c ∈ choicesOf t := by
  obtain ⟨p, hp, hh⟩ := (mem_keys_cfc c t).mp h
  rcases hb : p.1 with _ | ⟨f, r⟩
  · rw [hb] at hh
    cases hh
  · rw [hb, List.head?_cons] at hh
    injection hh with hf
    refine (mem_choicesOf c t).mpr ⟨p, hp, ?_⟩
    rw [hb, ← hf]
    exact List.mem_cons_self _ _

/-- After an elimination round, the surviving tally still contains a
nonempty ballot: the count dict had at least two (distinct) first choices,
and a first choice different from the eliminated candidate stays at the
head of its ballot. -/
theorem rcv_round_preserves_nonempty (t : Tally) (tb : List String)
    (rr : RoundResult) (h : rcv_round t tb = Except.ok rr) (hw : rr.w = none)
    (e : String) (he : rr.e = some e) (LL : Tally) (hLL : rr.LL = some LL) :
    ∃ p, p ∈ delete_name LL e false ∧ p.1 ≠ [] := by
  obtain ⟨hd, hlen, x, hx, hex, hLL', hmin⟩ := rcv_round_elim_spec t tb rr h hw
  rw [he] at hex
  have hxe : e = x.1 := Option.some.inj hex
  rw [hLL] at hLL'
  have hLLe : LL = delete_name t x.1 false := Option.some.inj hLL'
  have hnd : (keys rr.d).Nodup := by rw [hd]; exact nodup_keys_cfc t
  have hc : ∃ c, c ∈ keys rr.d ∧ c ≠ x.1 := by
    rcases hdd : rr.d with _ | ⟨p1, _ | ⟨p2, rest⟩⟩
    · rw [hdd] at hlen; simp at hlen
    · rw [hdd] at hlen; simp at hlen
    · rw [hdd] at hnd
      simp only [keys, List.map_cons, List.nodup_cons, List.mem_cons, not_or] at hnd
      have hne : p1.1 ≠ p2.1 := hnd.1.1
      by_cases h1 : p1.1 = x.1
      · refine ⟨p2.1, by simp [hdd, keys], fun hh => hne (h1.trans hh.symm)⟩
      · exact ⟨p1.1, by simp [hdd, keys], h1⟩
  obtain ⟨c, hck, hcne⟩ := hc
  rw [hd] at hck
  obtain ⟨p0, hp0, hh0⟩ := (mem_keys_cfc c t).mp hck
  rcases hb : p0.1 with _ | ⟨f, bs⟩
  · rw [hb] at hh0
    cases hh0
  · rw [hb, List.head?_cons] at hh0
    injection hh0 with hf
    have hfne : f ≠ x.1 := by rw [hf]; exact hcne
    obtain ⟨tl1, htl1⟩ := removeName_cons_of_ne f bs hfne
    have hk1 : removeName p0.1 x.1 false ∈ keys (delete_name t x.1 false) := by
      rw [delete_name]
      exact (mem_keys_mapKeysMerge _ _ t).mpr ⟨p0, hp0, rfl⟩
    rw [hb, htl1] at hk1
    rw [← hLLe] at hk1
    obtain ⟨c1, hc1⟩ := (mem_keys _ _).mp hk1
    obtain ⟨tl2, htl2⟩ := removeName_cons_of_ne f tl1 hfne
    have hk2 : removeName (f :: tl1) x.1 false ∈ keys (delete_name LL x.1 false) := by
      rw [delete_name]
      exact (mem_keys_mapKeysMerge _ _ LL).mpr ⟨(f :: tl1, c1), hc1, rfl⟩
    rw [htl2] at hk2
    obtain ⟨c2, hc2⟩ := (mem_keys _ _).mp hk2
    refine ⟨(f :: tl2, c2), ?_, by simp⟩
    rw [hxe]
    exact hc2

/-- The `rcv_winner` loop never hits the exhaustion assert when started on a
tally containing a nonempty ballot. -/
theorem rcv_winner_fuel_no_exhaustion (tb : List String) :
    ∀ (n : Nat) (t : Tally), (∃ p, p ∈ t ∧ p.1 ≠ []) →
      rcv_winner_fuel tb n t ≠ Except.error RcvError.exhausted := by
  intro n
  induction n with
  | zero =>
    intro t _
    simp [rcv_winner_fuel]
  | succ n ih =>
    intro t hp h
    rw [rcv_winner_fuel] at h
    rcases hr : rcv_round t tb with err | rr
    · exact cfc_ne_nil t hp (rcv_round_error_spec t tb err hr).2
    · rcases rr with ⟨w, d, eo, Lo⟩
      rcases w with _ | w
      · obtain ⟨hd, hlen, x, hx, hex, hLL', hmin⟩ := rcv_round_elim_spec t tb _ hr rfl
        rw [hr] at h
        have heo : eo = some x.1 := hex
        have hlo : Lo = some (delete_name t x.1 false) := hLL'
        rw [heo, hlo] at h
        simp only [] at h
        refine ih _ ?_ h
        exact rcv_round_preserves_nonempty t tb _ hr rfl x.1 hex
          (delete_name t x.1 false) hLL'
      · rw [hr] at h
        simp only [] at h
        cases h

/-- With fuel equal to the number of distinct candidates, the `rcv_winner`
loop reaches a winner: every elimination round removes the eliminated
candidate from the candidate set and keeps a nonempty ballot alive. -/
theorem rcv_winner_fuel_ok (tb : List String) :
    ∀ (n : Nat) (t : Tally), (choicesOf t).card ≤ n → (∃ p, p ∈ t ∧ p.1 ≠ []) →
      ∃ w, rcv_winner_fuel tb n t = Except.ok w := by
  intro n
  induction n with
  | zero =>
    intro t hcard hp
    exfalso
    obtain ⟨p, hp, hne⟩ := hp
    rcases hb : p.1 with _ | ⟨f, bs⟩
    · exact hne hb
    · have hf : f ∈ choicesOf t :=
        (mem_choicesOf f t).mpr ⟨p, hp, by rw [hb]; exact List.mem_cons_self _ _⟩
      have hpos : 0 < (choicesOf t).card := Finset.card_pos.mpr ⟨f, hf⟩
      omega
  | succ n ih =>
    intro t hcard hp
    rw [rcv_winner_fuel]
    rcases hr : rcv_round t tb with err | rr
    · exact absurd (rcv_round_error_spec t tb err hr).2 (cfc_ne_nil t hp)
    · rcases rr with ⟨w, d, eo, Lo⟩
      rcases w with _ | w
      · obtain ⟨hd, hlen, x, hx, hex, hLL', hmin⟩ := rcv_round_elim_spec t tb _ hr rfl
        have heo : eo = some x.1 := hex
        have hlo : Lo = some (delete_name t x.1 false) := hLL'
        rw [heo, hlo]
        simp only []
        apply ih
        · have hsub : choicesOf (delete_name (delete_name t x.1 false) x.1 false) ⊆
              (choicesOf t).erase x.1 := by
            intro y hy
            have h1 := mem_choicesOf_delete_name hy
            have h2 := mem_choicesOf_delete_name h1.1
            exact Finset.mem_erase.mpr ⟨h1.2, h2.1⟩
          have hmem : x.1 ∈ choicesOf t := by
            apply choicesOf_of_mem_cfc
            rw [← hd]
            exact (mem_keys _ _).mpr ⟨x.2, hx⟩
          have hcard2 := Finset.card_le_card hsub
          rw [Finset.card_erase_of_mem hmem] at hcard2
          have hpos : 0 < (choicesOf t).card := Finset.card_pos.mpr ⟨x.1, hmem⟩
          omega
        · exact rcv_round_preserves_nonempty t tb _ hr rfl x.1 hex
            (delete_name t x.1 false) hLL'
      · exact ⟨w, rfl⟩

/-- Helper for idempotence: on a tally whose (distinct) ballots contain
neither `'overvote'` nor `'undervote'`, each cleaning stage is the
identity. -/
theorem clean_fixed (c : Tally) (hnd : (keys c).Nodup)
    (hov : ∀ b ∈ keys c, "overvote" ∉ b)
    (huv : ∀ b ∈ keys c, "undervote" ∉ b) :
    clean c = c := by
  have hmem : ∀ p : Ballot × Nat, p ∈ c → p.1 ∈ keys c := by
    intro p hp
    exact (mem_keys p.1 c).mpr ⟨p.2, hp⟩
  have h1 : delete_overvotes c = c := by
    rw [delete_overvotes, delete_name]
    exact mapKeysMerge_id _ c hnd
      (fun p hp => removeName_id true (hov p.1 (hmem p hp)))
  have h2 : delete_double_undervotes c = c := by
    rw [delete_double_undervotes]
    refine mapKeysMerge_id _ c hnd (fun p hp => ?_)
    rw [double_uv_at_of_not_mem p.1 (huv p.1 (hmem p hp))]
    exact List.take_length p.1
  have h3 : delete_name c "undervote" false = c := by
    rw [delete_name]
    exact mapKeysMerge_id _ c hnd
      (fun p hp => removeName_id false (huv p.1 (hmem p hp)))
  rw [clean, h1, delete_undervotes, h2, h3]

end RcvTally

namespace RcvTally

end RcvTally

namespace RcvTally

/-- C4: For the tally `{('a','b'):1, ('c','d'):1, ('c','e'):1, ('f','a'):1}`
with tie-break order `('a','b','c','d','e','f')`, the first round's
first-choice counts are `{a:1, c:2, f:1}` and the eliminated candidate is
`'f'` (matching the doctest at rcv.py lines 230-232). -/
theorem rcv_round_example_eliminates_f :
    rcv_round
        [(["a", "b"], 1), (["c", "d"], 1), (["c", "e"], 1), (["f", "a"], 1)]
        ["a", "b", "c", "d", "e", "f"]
      = Except.ok ⟨none, [("a", 1), ("c", 2), ("f", 1)], some "f",
          some [(["a", "b"], 1), (["c", "d"], 1), (["c", "e"], 1), (["a"], 1)]⟩ := by
  decide

/-- C8: Cleaning is idempotent: `clean(clean(T)) == clean(T)` for every
tally `T`.  After one pass neither `'overvote'` nor `'undervote'` remains in
any ballot, so every later stage transforms each ballot identically and the
merging rebuild reproduces the tally unchanged. -/
theorem clean_idempotent (t : Tally) : clean (clean t) = clean t :=
  clean_fixed (clean t) (nodup_keys_clean t) (keys_clean_no_overvote t)
    (keys_clean_no_undervote t)

/-- C3: When a round has no winner, the candidate eliminated by `rcv_round`
has the minimum first-choice count; among candidates tied at that minimum it
has the largest tie-break index; and a candidate absent from the tie-break
list has index equal to the list's length. -/
theorem rcv_round_eliminates_min_count_max_index (t : Tally) (tb : List String)
    (rr : RoundResult) (e : String)
    (h : rcv_round t tb = Except.ok rr) (hw : rr.w = none) (he : rr.e = some e) :
    (∃ ce, (e, ce) ∈ rr.d ∧ (∀ p ∈ rr.d, ce ≤ p.2) ∧
        ∀ p ∈ rr.d, p.2 = ce →
          tie_breaker_index tb p.1 ≤ tie_breaker_index tb e) ∧
      ∀ name, name ∉ tb → tie_breaker_index tb name = tb.length := by
  obtain ⟨hd, hlen, x, hx, hex, hLL, hmin⟩ := rcv_round_elim_spec t tb rr h hw
  rw [he] at hex
  have hxe : e = x.1 := Option.some.inj hex
  constructor
  · refine ⟨x.2, ?_, ?_, ?_⟩
    · rw [hxe]
      exact hx
    · intro p hp
      have hmm := hmin p hp
      rw [tripleLt_false_iff] at hmm
      push_neg at hmm
      simp only [elimKey] at hmm
      exact hmm.1
    · intro p hp hpc
      have hmm := hmin p hp
      rw [tripleLt_false_iff] at hmm
      push_neg at hmm
      simp only [elimKey] at hmm
      have h2 := (hmm.2 hpc).1
      rw [hxe]
      omega
  · intro name hname
    rw [tie_breaker_index, if_neg hname]

/-- C10: when candidates tie on both first-choice count and tie-break index,
`rcv_round` eliminates the lexicographically smallest name among them (the
third component of Python's sorted triples), so elimination is fully
deterministic. -/
theorem rcv_round_tie_breaks_lexicographically (t : Tally) (tb : List String)
    (rr : RoundResult) (e : String) (ce : Nat) (p : String × Nat)
    (h : rcv_round t tb = Except.ok rr) (hw : rr.w = none) (he : rr.e = some e)
    (hce : (e, ce) ∈ rr.d) (hp : p ∈ rr.d) (hcount : p.2 = ce)
    (hidx : tie_breaker_index tb p.1 = tie_breaker_index tb e) :
    ¬ p.1 < e := by
  obtain ⟨hd, hlen, x, hx, hex, hLL, hmin⟩ := rcv_round_elim_spec t tb rr h hw
  rw [he] at hex
  have hxe : e = x.1 := Option.some.inj hex
  subst hxe
  have hnd : (keys rr.d).Nodup := by rw [hd]; exact nodup_keys_cfc t
  have hce2 : ce = x.2 := keyval_unique rr.d hnd hce hx
  have hmm := hmin p hp
  rw [tripleLt_false_iff] at hmm
  push_neg at hmm
  simp only [elimKey] at hmm
  have hpc : p.2 = x.2 := by omega
  have hni : -(tie_breaker_index tb p.1 : Int) = -(tie_breaker_index tb x.1 : Int) := by
    omega
  exact ((hmm.2 hpc).2 hni)

/-- C3 (witness): in the concrete round of claim C4, the eliminated
candidate `'f'` has the minimum count 1 and, among the candidates tied at
1, the largest tie-break index. -/
theorem rcv_round_eliminates_min_count_max_index_witness :
    (∃ ce, (("f", ce) ∈ [("a", 1), ("c", 2), ("f", 1)]) ∧
        (∀ p ∈ [("a", 1), ("c", 2), ("f", 1)], ce ≤ p.2) ∧
        ∀ p ∈ [("a", 1), ("c", 2), ("f", 1)], p.2 = ce →
          tie_breaker_index ["a", "b", "c", "d", "e", "f"] p.1 ≤
            tie_breaker_index ["a", "b", "c", "d", "e", "f"] "f") ∧
      ∀ name, name ∉ ["a", "b", "c", "d", "e", "f"] →
        tie_breaker_index ["a", "b", "c", "d", "e", "f"] name = 6 :=
  rcv_round_eliminates_min_count_max_index
    [(["a", "b"], 1), (["c", "d"], 1), (["c", "e"], 1), (["f", "a"], 1)]
    ["a", "b", "c", "d", "e", "f"]
    ⟨none, [("a", 1), ("c", 2), ("f", 1)], some "f",
      some [(["a", "b"], 1), (["c", "d"], 1), (["c", "e"], 1), (["a"], 1)]⟩
    "f" (by decide) (by decide) (by decide)

/-- C10 (witness): with an empty tie-break list, candidates `'x'` and `'y'`
tie on count and index, and the eliminated candidate `'x'` is not preceded
lexicographically by the tied `'y'`. -/
theorem rcv_round_tie_breaks_lexicographically_witness :
    ¬ ("y" : String) < "x" :=
  rcv_round_tie_breaks_lexicographically
    [(["x"], 1), (["y"], 1), (["z"], 2)] []
    ⟨none, [("x", 1), ("y", 1), ("z", 2)], some "x",
      some [([], 1), (["y"], 1), (["z"], 2)]⟩
    "x" 1 ("y", 1)
    (by decide) (by decide) (by decide) (by decide) (by decide) (by decide) (by decide)

/-- C5 (amended): the tabulator fails fatally exactly when a round's
first-choice count map is empty, and for every raw tally `R` such that
`clean R` contains at least one non-empty ballot, running the tabulator on
`clean R` never triggers the exhaustion failure (for any number of rounds
and any tie-break list). -/
theorem tabulation_exhaustion_spec :
    (∀ (t : Tally) (tb : List String),
        rcv_round t tb = Except.error RcvError.exhausted ↔
          count_first_choices t = []) ∧
      ∀ (R : Tally) (tb : List String) (n : Nat),
        (∃ p, p ∈ clean R ∧ p.1 ≠ []) →
        rcv_winner_fuel tb n (clean R) ≠ Except.error RcvError.exhausted := by
  constructor
  · intro t tb
    exact rcv_round_exhausted_iff t tb
  · intro R tb n hp
    exact rcv_winner_fuel_no_exhaustion tb n (clean R) hp

/-- C5 (counterexample to the claim as stated): the raw tally
`{('undervote',): 1}` cleans to the non-empty tally `{(): 1}`, on which the
tabulator immediately raises the exhaustion failure — so non-emptiness of
`clean R` alone does not rule out exhaustion. -/
theorem tabulation_exhaustion_cex :
    clean [(["undervote"], 1)] ≠ [] ∧
      rcv_winner_fuel [] 1 (clean [(["undervote"], 1)])
        = Except.error RcvError.exhausted := by
  constructor
  · decide
  · decide

/-- C5 (witness): the cleaned tally `{('a',): 1}` has a non-empty ballot,
so the tabulator does not raise exhaustion on it. -/
theorem tabulation_exhaustion_spec_witness :
    rcv_winner_fuel [] 1 (clean [(["a"], 1)])
      ≠ Except.error RcvError.exhausted :=
  tabulation_exhaustion_spec.2 [(["a"], 1)] [] 1 ⟨(["a"], 1), by decide, by decide⟩

/-- C9: for every tally containing at least one non-empty ballot (i.e. at
least one candidate holds a first-choice vote), the `rcv_winner` loop
terminates with a winner within at most (number of distinct candidates)
rounds. -/
theorem rcv_winner_terminates (t : Tally) (tb : List String)
    (h : ∃ p, p ∈ t ∧ p.1 ≠ []) :
    ∃ w, rcv_winner_fuel tb (choicesOf t).card t = Except.ok w :=
  rcv_winner_fuel_ok tb (choicesOf t).card t le_rfl h

/-- C9 (witness): the tally `{('a','b'): 1, ('b',): 1}` has two distinct
candidates and the tabulator reaches a winner within two rounds. -/
theorem rcv_winner_terminates_witness :
    ∃ w, rcv_winner_fuel []
        (choicesOf [(["a", "b"], 1), (["b"], 1)]).card
        [(["a", "b"], 1), (["b"], 1)] = Except.ok w :=
  rcv_winner_terminates [(["a", "b"], 1), (["b"], 1)] []
    ⟨(["a", "b"], 1), by decide, by decide⟩

/-- C2 (counterexample): in the tally-based `count_first_choices`
(v2-ballot-dictionary_based/rcv.py lines 156-182), candidate `"b"` appears
on a ballot of the tally `{('a','b'): 1}` but receives no entry at all in
the first-choice count map — the map has entries only for candidates that
are a current first choice, contradicting the claimed
"entry for every candidate still present ..., with value zero". -/
theorem count_first_choices_no_placeholder :
    count_first_choices [(["a", "b"], 1)] = [("a", 1)]
      ∧ "b" ∉ keys (count_first_choices [(["a", "b"], 1)]) := by
  constructor
  · decide
  · decide

end RcvTally

namespace RcvList

/-- Python's `if choice not in d: d[choice] = 0` (src/rcv.py lines 174-176):
insert a zero-count placeholder for a choice not yet in the dict. -/
def ensure_zero (d : List (String × Nat)) (choice : String) : List (String × Nat) :=
  if (List.lookup choice d).isSome then d else d ++ [(choice, 0)]

/-- Python's `d[first_choice] = 1 + d[first_choice]` (src/rcv.py line 179):
update the existing entry in place (the key is always present, having just
been inserted by the placeholder loop). -/
def incr_first : List (String × Nat) → String → List (String × Nat)
  | [], _ => []
  | x :: rest, f => if x.1 = f then (x.1, 1 + x.2) :: rest else x :: incr_first rest f

/-- One iteration of the ballot loop of the list-based
`count_first_choices` (src/rcv.py lines 172-179): add a zero placeholder
for every choice on the ballot, then bump the first choice if the ballot is
nonempty. -/
def cfc_step (d : List (String × Nat)) (ballot : List String) :
    List (String × Nat) :=
  match ballot with
  | [] => ballot.foldl ensure_zero d
  | f :: _ => incr_first (ballot.foldl ensure_zero d) f

/-- `count_first_choices` from the list-based `src/rcv.py`, lines 155-181:
every choice occurring anywhere on any ballot gets an entry (zero if never
a current first choice), and each nonempty ballot bumps its first choice. -/
def count_first_choices (L : List (List String)) : List (String × Nat) :=
  L.foldl cfc_step []

theorem lookup_isSome_iff (c : String) :
    ∀ d : List (String × Nat),
      (List.lookup c d).isSome = true ↔ c ∈ RcvTally.keys d := by
  intro d
  induction d with
  | nil => simp [RcvTally.keys]
  | cons x rest ih =>
    rw [List.lookup]
    by_cases h : c = x.1
    · simp [h, RcvTally.keys]
    · have hb : (c == x.1) = false := by simpa using h
      rw [hb]
      simp only [RcvTally.keys, List.map_cons, List.mem_cons]
      rw [ih]
      simp only [RcvTally.keys]
      constructor
      · intro hm
        exact Or.inr hm
      · rintro (hm | hm)
        · exact absurd hm h
        · exact hm

theorem lookup_append_singleton (c x : String) (v : Nat) :
    ∀ d : List (String × Nat),
      List.lookup c (d ++ [(x, v)]) =
        match List.lookup c d with
        | some w => some w
        | none => if c = x then some v else none := by
  intro d
  induction d with
  | nil =>
    simp only [List.nil_append, List.lookup]
    by_cases h : c = x
    · simp [h]
    · have hb : (c == x) = false := by simpa using h
      rw [hb, if_neg h]
  | cons y rest ih =>
    simp only [List.cons_append, List.lookup]
    by_cases h : c = y.1
    · have hb : (c == y.1) = true := by simpa using h
      rw [hb]
    · have hb : (c == y.1) = false := by simpa using h
      rw [hb]
      exact ih

theorem lookup_ensure_zero (c x : String) (d : List (String × Nat)) :
    List.lookup c (ensure_zero d x) =
      match List.lookup c d with
      | some w => some w
      | none => if x = c then some 0 else none := by
  rw [ensure_zero]
  by_cases hs : (List.lookup x d).isSome = true
  · rw [if_pos hs]
    rcases hc : List.lookup c d with _ | w
    · simp only []
      by_cases hxc : x = c
      · subst hxc
        rw [hc] at hs
        cases hs
      · rw [if_neg hxc]
    · rfl
  · rw [if_neg hs, lookup_append_singleton]
    rcases hc : List.lookup c d with _ | w
    · simp only []
      by_cases hxc : x = c
      · rw [if_pos hxc, if_pos hxc.symm]
      · rw [if_neg hxc, if_neg (fun hh => hxc hh.symm)]
    · rfl

theorem lookup_ensure_fold (c : String) :
    ∀ (ballot : List String) (d : List (String × Nat)),
      List.lookup c (ballot.foldl ensure_zero d) =
        match List.lookup c d with
        | some w => some w
        | none => if c ∈ ballot then some 0 else none := by
  intro ballot
  induction ballot with
  | nil =>
    intro d
    simp only [List.foldl_nil]
    rcases hc : List.lookup c d with _ | w
    · simp
    · rfl
  | cons x bs ih =>
    intro d
    rw [List.foldl_cons, ih, lookup_ensure_zero]
    rcases hc : List.lookup c d with _ | w
    · simp only []
      by_cases hxc : x = c
      · rw [if_pos hxc]
        have : c ∈ x :: bs := by rw [hxc]; exact List.mem_cons_self _ _
        rw [if_pos this]
      · rw [if_neg hxc]
        simp only []
        by_cases hcb : c ∈ bs
        · rw [if_pos hcb, if_pos (List.mem_cons_of_mem _ hcb)]
        · rw [if_neg hcb, if_neg ?_]
          intro hm
          rcases List.mem_cons.mp hm with hm | hm
          · exact hxc hm.symm
          · exact hcb hm
    · rfl

theorem lookup_incr_first_ne (c f : String) (h : f ≠ c) :
    ∀ d : List (String × Nat),
      List.lookup c (incr_first d f) = List.lookup c d := by
  intro d
  induction d with
  | nil => rfl
  | cons x rest ih =>
    rw [incr_first]
    by_cases hx : x.1 = f
    · rw [if_pos hx]
      have hb : (c == x.1) = false := by
        simp only [beq_eq_false_iff_ne, ne_eq]
        intro hh
        exact h (by rw [hx] at hh; exact hh.symm)
      simp only [List.lookup, hb]
    · rw [if_neg hx]
      simp only [List.lookup]
      rcases hb : (c == x.1) with _ | _
      · exact ih
      · rfl

theorem keys_incr_first (f : String) :
    ∀ d : List (String × Nat),
      RcvTally.keys (incr_first d f) = RcvTally.keys d := by
  intro d
  induction d with
  | nil => rfl
  | cons x rest ih =>
    rw [incr_first]
    by_cases hx : x.1 = f
    · rw [if_pos hx]
      simp [RcvTally.keys]
    · rw [if_neg hx]
      simp only [RcvTally.keys, List.map_cons]
      rw [show RcvTally.keys (incr_first rest f) =
        List.map Prod.fst (incr_first rest f) from rfl] at ih
      rw [ih]
      rfl

theorem mem_keys_ensure_fold (c : String) :
    ∀ (ballot : List String) (d : List (String × Nat)),
      c ∈ RcvTally.keys (ballot.foldl ensure_zero d) ↔
        c ∈ RcvTally.keys d ∨ c ∈ ballot := by
  intro ballot
  induction ballot with
  | nil => simp
  | cons x bs ih =>
    intro d
    rw [List.foldl_cons, ih]
    have hstep : c ∈ RcvTally.keys (ensure_zero d x) ↔
        c ∈ RcvTally.keys d ∨ c = x := by
      rw [ensure_zero]
      by_cases hs : (List.lookup x d).isSome = true
      · rw [if_pos hs]
        constructor
        · intro hm
          exact Or.inl hm
        · rintro (hm | hm)
          · exact hm
          · rw [hm]
            exact (lookup_isSome_iff x d).mp hs
      · rw [if_neg hs]
        simp [RcvTally.keys]
    rw [hstep]
    simp only [List.mem_cons]
    tauto

theorem mem_keys_cfc_step (c : String) (d : List (String × Nat))
    (ballot : List String) :
    c ∈ RcvTally.keys (cfc_step d ballot) ↔
      c ∈ RcvTally.keys d ∨ c ∈ ballot := by
  rcases hb : ballot with _ | ⟨f, bs⟩
  · simp [cfc_step]
  · rw [cfc_step, keys_incr_first, mem_keys_ensure_fold]

theorem mem_keys_cfc_fold (c : String) :
    ∀ (L : List (List String)) (d : List (String × Nat)),
      c ∈ RcvTally.keys (L.foldl cfc_step d) ↔
        c ∈ RcvTally.keys d ∨ ∃ b, b ∈ L ∧ c ∈ b := by
  intro L
  induction L with
  | nil => simp
  | cons b L' ih =>
    intro d
    rw [List.foldl_cons, ih, mem_keys_cfc_step]
    simp only [List.mem_cons]
    constructor
    · rintro ((h | h) | ⟨b', hb', hc⟩)
      · exact Or.inl h
      · exact Or.inr ⟨b, Or.inl rfl, h⟩
      · exact Or.inr ⟨b', Or.inr hb', hc⟩
    · rintro (h | ⟨b', hb' | hb', hc⟩)
      · exact Or.inl (Or.inl h)
      · subst hb'
        exact Or.inl (Or.inr hc)
      · exact Or.inr ⟨b', hb', hc⟩

theorem lookup_cfc_step_preserve (c : String) (d : List (String × Nat))
    (ballot : List String) (hhead : ballot.head? ≠ some c) (w : Nat)
    (hl : List.lookup c d = some w) :
    List.lookup c (cfc_step d ballot) = some w := by
  rcases hb : ballot with _ | ⟨f, bs⟩
  · simpa [cfc_step] using hl
  · rw [hb, List.head?_cons] at hhead
    have hf : f ≠ c := fun hh => hhead (by rw [hh])
    rw [cfc_step, lookup_incr_first_ne c f hf, lookup_ensure_fold, hl]

theorem lookup_cfc_step_zero (c : String) (d : List (String × Nat))
    (ballot : List String) (hhead : ballot.head? ≠ some c)
    (hl : List.lookup c d = none) (hc : c ∈ ballot) :
    List.lookup c (cfc_step d ballot) = some 0 := by
  rcases hb : ballot with _ | ⟨f, bs⟩
  · rw [hb] at hc
    cases hc
  · rw [hb, List.head?_cons] at hhead
    have hf : f ≠ c := fun hh => hhead (by rw [hh])
    rw [cfc_step, lookup_incr_first_ne c f hf, lookup_ensure_fold, hl]
    rw [← hb, if_pos hc]

theorem lookup_cfc_step_none (c : String) (d : List (String × Nat))
    (ballot : List String) (hl : List.lookup c d = none) (hc : c ∉ ballot) :
    List.lookup c (cfc_step d ballot) = none := by
  rcases hb : ballot with _ | ⟨f, bs⟩
  · simpa [cfc_step] using hl
  · have hf : f ≠ c := by
      intro hh
      apply hc
      rw [hb, hh]
      exact List.mem_cons_self _ _
    rw [cfc_step, lookup_incr_first_ne c f hf, lookup_ensure_fold, hl]
    rw [← hb, if_neg hc]

theorem lookup_cfc_fold_preserve (c : String) (w : Nat) :
    ∀ (L : List (List String)) (d : List (String × Nat)),
      (∀ b ∈ L, b.head? ≠ some c) → List.lookup c d = some w →
      List.lookup c (L.foldl cfc_step d) = some w := by
  intro L
  induction L with
  | nil => intro d _ hl; exact hl
  | cons b L' ih =>
    intro d hhead hl
    rw [List.foldl_cons]
    exact ih _ (fun b' hb' => hhead b' (List.mem_cons_of_mem _ hb'))
      (lookup_cfc_step_preserve c d b (hhead b (List.mem_cons_self _ _)) w hl)

theorem lookup_cfc_fold_zero (c : String) :
    ∀ (L : List (List String)) (d : List (String × Nat)),
      (∀ b ∈ L, b.head? ≠ some c) → List.lookup c d = none →
      (∃ b, b ∈ L ∧ c ∈ b) →
      List.lookup c (L.foldl cfc_step d) = some 0 := by
  intro L
  induction L with
  | nil =>
    intro d _ _ hex
    obtain ⟨b, hb, _⟩ := hex
    cases hb
  | cons b L' ih =>
    intro d hhead hl hex
    rw [List.foldl_cons]
    by_cases hc : c ∈ b
    · exact lookup_cfc_fold_preserve c 0 L' _
        (fun b' hb' => hhead b' (List.mem_cons_of_mem _ hb'))
        (lookup_cfc_step_zero c d b (hhead b (List.mem_cons_self _ _)) hl hc)
    · refine ih _ (fun b' hb' => hhead b' (List.mem_cons_of_mem _ hb'))
        (lookup_cfc_step_none c d b hl hc) ?_
      obtain ⟨b', hb', hc'⟩ := hex
      rcases List.mem_cons.mp hb' with hh | hh
      · subst hh
        exact absurd hc' hc
      · exact ⟨b', hh, hc'⟩

end RcvList

namespace RcvList

/-- C2 (amended): in the list-based `count_first_choices` of `src/rcv.py`,
the count map has an entry exactly for every candidate present at any
position in any ballot; a candidate that is never a current first choice
has value zero; and a ballot of length 0 contributes to no candidate's
count (removing it leaves the count map unchanged). -/
theorem count_first_choices_complete :
    (∀ (L : List (List String)) (c : String),
        c ∈ RcvTally.keys (count_first_choices L) ↔ ∃ b, b ∈ L ∧ c ∈ b)
      ∧ (∀ (L : List (List String)) (c : String),
          (∃ b, b ∈ L ∧ c ∈ b) → (∀ b ∈ L, b.head? ≠ some c) →
          List.lookup c (count_first_choices L) = some 0)
      ∧ ∀ (L1 L2 : List (List String)),
          count_first_choices (L1 ++ [] :: L2) = count_first_choices (L1 ++ L2) := by
  refine ⟨?_, ?_, ?_⟩
  · intro L c
    rw [count_first_choices, mem_keys_cfc_fold]
    simp [RcvTally.keys]
  · intro L c hex hhead
    rw [count_first_choices]
    exact lookup_cfc_fold_zero c L [] hhead rfl hex
  · intro L1 L2
    rw [count_first_choices, count_first_choices, List.foldl_append,
      List.foldl_append, List.foldl_cons]
    rfl

/-- C2 (witness): in the ballot list `[('a','b')]`, candidate `"b"` appears
but is never a first choice, and the list-based `count_first_choices`
assigns it the explicit entry zero. -/
theorem count_first_choices_complete_witness :
    List.lookup "b" (count_first_choices [["a", "b"]]) = some 0 :=
  count_first_choices_complete.2.1 [["a", "b"]] "b"
    ⟨["a", "b"], by decide, by decide⟩ (by decide)

end RcvList

namespace Bptool

/-- Errors raised by bptool.py: `valueError` covers both `ValueError` raise
sites (a negative seed in `convert_int_to_32_bit_numpy_array`, lines 96-99,
and a sample exceeding the total in `dirichlet_multinomial`, lines 164-166
— the latter is the spec's `InvalidInput`); `indexError` models an
out-of-range list index; `typeError` models `len(None)` when
`compute_winner` is called with no counties. -/
inductive BPError where
  | valueError : BPError
  | indexError : BPError
  | typeError : BPError
deriving DecidableEq

/-- Abstract model of a seeded numpy `RandomState`.  `randomState seed`
models `np.random.RandomState(convert_int_to_32_bit_numpy_array(seed))`
for a non-negative seed; `gamma` and `multinomial` model the deterministic
draw functions `rs.gamma(k)` and `rs.multinomial(n, pvals)`, threading the
generator state explicitly.  numpy guarantees that a multinomial draw has
one category per probability, which is the `multinomial_length` law. -/
structure RNG (RS : Type) where
  randomState : Nat → RS
  gamma : RS → Nat → RS × Rat
  multinomial : RS → Nat → List Rat → RS × List Nat
  multinomial_length : ∀ rs n ps, (multinomial rs n ps).2.length = ps.length

/-- `create_rs` from bptool.py lines 109-128 composed with
`convert_int_to_32_bit_numpy_array` (lines 74-106): a negative seed raises
`ValueError`, otherwise a `RandomState` seeded from the integer results. -/
def create_rs {RS : Type} (A : RNG RS) (seed : Int) : Except BPError RS :=
  if seed < 0 then Except.error BPError.valueError
  else Except.ok (A.randomState seed.toNat)

/-- The list comprehension `[rs.gamma(k) for k in sample_with_prior]`
(bptool.py line 175), threading the generator state left to right. -/
def drawGammas {RS : Type} (A : RNG RS) : RS → List Nat → RS × List Rat
  | rs, [] => (rs, [])
  | rs, k :: ks =>
    let g := A.gamma rs k
    let r := drawGammas A g.1 ks
    (r.1, g.2 :: r.2)

/-- `dirichlet_multinomial` from bptool.py lines 135-181: raise
`ValueError` when the sample exceeds the total; otherwise draw one gamma
variate per candidate with the `+1` pseudocount prior, normalize, and draw
the multinomial completion of the unsampled ballots.  Python's float
arithmetic on the drawn values is modelled over `ℚ`; no verified claim
depends on the numeric values. -/
def dirichlet_multinomial {RS : Type} (A : RNG RS) (sample_tally : List Nat)
    (total_num_votes : Nat) (rs : RS) : Except BPError (RS × List Nat) :=
  if total_num_votes < sample_tally.sum then Except.error BPError.valueError
  else
    let nonsample_size := total_num_votes - sample_tally.sum
    let sample_with_prior := sample_tally.map (fun k => k + 1)
    let gs := drawGammas A rs sample_with_prior
    let gamma_sample_sum : Rat := gs.2.sum
    let gamma_sample := gs.2.map (fun k => k / gamma_sample_sum)
    let ms := A.multinomial gs.1 nonsample_size gamma_sample
    Except.ok (ms.1, ms.2)

/-- `generate_nonsample_tally` from bptool.py lines 184-212: create the
`RandomState` from the seed, then run the Dirichlet-multinomial draw. -/
def generate_nonsample_tally {RS : Type} (A : RNG RS) (sample_tally : List Nat)
    (total_num_votes : Nat) (seed : Int) : Except BPError (List Nat) :=
  match create_rs A seed with
  | Except.error e => Except.error e
  | Except.ok rs =>
    match dirichlet_multinomial A sample_tally total_num_votes rs with
    | Except.error e => Except.error e
    | Except.ok r => Except.ok r.2

/-- Stable insert used to model Python's stable `list.sort(key = ...)`:
the new element `x` originally precedes every element of `ys`, so it is
placed before the first element whose key is not smaller. -/
def insertByCount (x : Nat × Nat) : List (Nat × Nat) → List (Nat × Nat)
  | [] => [x]
  | y :: ys => if x.2 ≤ y.2 then x :: y :: ys else y :: insertByCount x ys

/-- Stable sort of `(candidate, count)` pairs by ascending count: the value
of `tallies.sort(key = lambda x: x[1])` in bptool.py line 224 (a stable
sort's output is uniquely determined by the comparison key, so any stable
sort models Python's).  An element is inserted before the first strictly
greater key, keeping equal keys in their original order. -/
def sortByCount : List (Nat × Nat) → List (Nat × Nat)
  | [] => []
  | x :: xs => insertByCount x (sortByCount xs)

/-- `plurality_winner` from bptool.py lines 214-227: sort ascending by
count, then take the slice `tallies[-vote_for_n:]` (for `vote_for_n = 0`
that slice is the whole list) and return the candidate indices. -/
def plurality_winner (candidate_names : List String)
    (tallies : List (Nat × Nat)) (vote_for_n : Nat) : List Nat :=
  let sorted := sortByCount tallies
  let winners_with_tallies :=
    if vote_for_n = 0 then sorted else sorted.drop (sorted.length - vote_for_n)
  winners_with_tallies.map Prod.fst

/-- The county loop of `compute_winner` (bptool.py lines 280-290):
`i` is the running `enumerate` index into `total_num_votes`, `acc` the
running `final_tallies` (`None` before the first county).  Each county
draws its nonsample completion, adds it elementwise to the sample, and is
summed elementwise into the accumulator. -/
def countyFold {RS : Type} (A : RNG RS) (seed : Int) (total_num_votes : List Nat) :
    List (List Nat) → Nat → Option (List Nat) →
      Except BPError (Option (List Nat))
  | [], _, acc => Except.ok acc
  | st :: rest, i, acc =>
    match total_num_votes.get? i with
    | none => Except.error BPError.indexError
    | some tot =>
      match generate_nonsample_tally A st tot seed with
      | Except.error e => Except.error e
      | Except.ok ns =>
        let fct := List.zipWith (fun a b => a + b) st ns
        countyFold A seed total_num_votes rest (i + 1)
          (match acc with
           | none => some fct
           | some f => some (List.zipWith (fun a b => a + b) f fct))

/-- `compute_winner` from bptool.py lines 230-294 with the default
`voting_method = plurality_winner`: run the county loop, fail like
`len(None)` when there were no counties, pair each aggregated count with
its candidate index, and apply the plurality rule. -/
def compute_winner {RS : Type} (A : RNG RS) (sample_tallies : List (List Nat))
    (total_num_votes : List Nat) (vote_for_n : Nat) (seed : Int)
    (candidate_names : List String) : Except BPError (List Nat) :=
  match countyFold A seed total_num_votes sample_tallies 0 none with
  | Except.error e => Except.error e
  | Except.ok none => Except.error BPError.typeError
  | Except.ok (some ft) =>
    let final_tallies := (List.range ft.length).map (fun k => (k, ft.getD k 0))
    Except.ok (plurality_winner candidate_names final_tallies vote_for_n)

/-- `win_count[winner + 1] += 1` (bptool.py line 361), with Python's
`IndexError` when the index is out of range. -/
def bumpAt : List Nat → Nat → Except BPError (List Nat)
  | [], _ => Except.error BPError.indexError
  | x :: xs, 0 => Except.ok ((x + 1) :: xs)
  | x :: xs, Nat.succ n =>
    match bumpAt xs n with
    | Except.error e => Except.error e
    | Except.ok ys => Except.ok (x :: ys)

/-- The inner loop `for winner in winners: win_count[winner+1] += 1`
(bptool.py lines 360-361). -/
def recordWins : List Nat → List Nat → Except BPError (List Nat)
  | wc, [] => Except.ok wc
  | wc, w :: ws =>
    match bumpAt wc (w + 1) with
    | Except.error e => Except.error e
    | Except.ok wc' => recordWins wc' ws

/-- The trial loop of `compute_win_probs` (bptool.py lines 351-361): for
each trial index `i` the seed is `seed + i*314159265`, the winners of one
simulated election are computed, and the win counters are incremented. -/
def trialLoop {RS : Type} (A : RNG RS) (sample_tallies : List (List Nat))
    (total_num_votes : List Nat) (seed : Int) (candidate_names : List String)
    (vote_for_n : Nat) : List Nat → List Nat → Except BPError (List Nat)
  | [], wc => Except.ok wc
  | i :: rest, wc =>
    match compute_winner A sample_tallies total_num_votes vote_for_n
        (seed + (i : Int) * 314159265) candidate_names with
    | Except.error e => Except.error e
    | Except.ok winners =>
      match recordWins wc winners with
      | Except.error e => Except.error e
      | Except.ok wc' =>
        trialLoop A sample_tallies total_num_votes seed candidate_names
          vote_for_n rest wc'

/-- `compute_win_probs` from bptool.py lines 297-364: run `num_trials`
trials accumulating `win_count` (one slot per candidate plus the unused
slot 0), then report `[(i, win_count[i]/num_trials) for i in
range(1, len(win_count))]`. -/
def compute_win_probs {RS : Type} (A : RNG RS) (sample_tallies : List (List Nat))
    (total_num_votes : List Nat) (seed : Int) (num_trials : Nat)
    (candidate_names : List String) (vote_for_n : Nat) :
    Except BPError (List (Nat × Rat)) :=
  match trialLoop A sample_tallies total_num_votes seed candidate_names
      vote_for_n (List.range num_trials)
      (List.replicate (1 + candidate_names.length) 0) with
  | Except.error e => Except.error e
  | Except.ok wc =>
    Except.ok (((List.range wc.length).drop 1).map
      (fun i => (i, (wc.getD i 0 : Rat) / (num_trials : Rat))))

/-- A concrete deterministic `RNG` instance used to evaluate the embedded
simulator on closed inputs. -/
def unitRNG : RNG Unit where
  randomState := fun _ => ()
  gamma := fun _ _ => ((), 1)
  multinomial := fun _ _ ps => ((), ps.map (fun _ => 0))
  multinomial_length := by
    intro rs n ps
    simp

/-! Length and membership lemmas for the simulator pipeline. -/

theorem drawGammas_length {RS : Type} (A : RNG RS) :
    ∀ (ks : List Nat) (rs : RS), (drawGammas A rs ks).2.length = ks.length := by
  intro ks
  induction ks with
  | nil => intro rs; rfl
  | cons k ks ih =>
    intro rs
    rw [drawGammas]
    simp only [List.length_cons]
    rw [ih]

theorem dirichlet_multinomial_ok {RS : Type} (A : RNG RS) (st : List Nat)
    (tot : Nat) (rs : RS) (h : st.sum ≤ tot) :
    ∃ r, dirichlet_multinomial A st tot rs = Except.ok r ∧
      r.2.length = st.length := by
  rw [dirichlet_multinomial, if_neg (by omega)]
  refine ⟨_, rfl, ?_⟩
  rw [A.multinomial_length]
  rw [List.length_map, drawGammas_length, List.length_map]

theorem generate_nonsample_tally_ok {RS : Type} (A : RNG RS) (st : List Nat)
    (tot : Nat) (seed : Int) (hseed : 0 ≤ seed) (h : st.sum ≤ tot) :
    ∃ ns, generate_nonsample_tally A st tot seed = Except.ok ns ∧
      ns.length = st.length := by
  rw [generate_nonsample_tally, create_rs, if_neg (by omega)]
  simp only []
  obtain ⟨r, hr, hl⟩ := dirichlet_multinomial_ok A st tot (A.randomState seed.toNat) h
  rw [hr]
  exact ⟨r.2, rfl, hl⟩

theorem length_insertByCount (x : Nat × Nat) :
    ∀ l : List (Nat × Nat), (insertByCount x l).length = l.length + 1 := by
  intro l
  induction l with
  | nil => rfl
  | cons y ys ih =>
    rw [insertByCount]
    by_cases h : x.2 ≤ y.2
    · rw [if_pos h]
      rfl
    · rw [if_neg h]
      simp only [List.length_cons, ih]

theorem length_sortByCount :
    ∀ l : List (Nat × Nat), (sortByCount l).length = l.length := by
  intro l
  induction l with
  | nil => rfl
  | cons x xs ih =>
    rw [sortByCount, length_insertByCount, ih, List.length_cons]

theorem mem_insertByCount (x y : Nat × Nat) :
    ∀ l : List (Nat × Nat), y ∈ insertByCount x l ↔ y = x ∨ y ∈ l := by
  intro l
  induction l with
  | nil => simp [insertByCount]
  | cons z zs ih =>
    rw [insertByCount]
    by_cases h : x.2 ≤ z.2
    · rw [if_pos h]
      simp only [List.mem_cons]
    · rw [if_neg h]
      simp only [List.mem_cons, ih]
      tauto

theorem mem_sortByCount (y : Nat × Nat) :
    ∀ l : List (Nat × Nat), y ∈ sortByCount l ↔ y ∈ l := by
  intro l
  induction l with
  | nil => simp [sortByCount]
  | cons x xs ih =>
    rw [sortByCount, mem_insertByCount]
    simp only [List.mem_cons, ih]

/-- Under the well-formedness hypotheses, the county loop succeeds and
produces an aggregate of one entry per candidate. -/
theorem countyFold_ok {RS : Type} (A : RNG RS) (seed : Int) (hseed : 0 ≤ seed)
    (tots : List Nat) (nc : Nat) :
    ∀ (sts : List (List Nat)) (i : Nat) (acc : Option (List Nat)),
      (∀ j st, sts.get? j = some st →
        st.length = nc ∧ ∃ tot, tots.get? (i + j) = some tot ∧ st.sum ≤ tot) →
      (∀ f, acc = some f → f.length = nc) →
      ∃ r, countyFold A seed tots sts i acc = Except.ok r ∧
        (∀ f, r = some f → f.length = nc) ∧
        (r = none → acc = none ∧ sts = []) := by
  intro sts
  induction sts with
  | nil =>
    intro i acc _ hacc
    exact ⟨acc, rfl, hacc, fun h => ⟨h, rfl⟩⟩
  | cons st rest ih =>
    intro i acc hwf hacc
    obtain ⟨hlen, tot, htot, hsum⟩ := hwf 0 st rfl
    rw [countyFold]
    rw [show i + 0 = i from rfl] at htot
    rw [htot]
    simp only []
    obtain ⟨ns, hns, hnsl⟩ := generate_nonsample_tally_ok A st tot seed hseed hsum
    rw [hns]
    simp only []
    have hfct : (List.zipWith (fun a b => a + b) st ns).length = nc := by
      rw [List.length_zipWith, hnsl, hlen]
      simp
    have hshift : ∀ j st', rest.get? j = some st' →
        st'.length = nc ∧ ∃ tot', tots.get? (i + 1 + j) = some tot' ∧ st'.sum ≤ tot' := by
      intro j st' hj
      obtain ⟨hl', tot', htot', hsum'⟩ := hwf (j + 1) st' hj
      refine ⟨hl', tot', ?_, hsum'⟩
      rw [show i + 1 + j = i + (j + 1) from by omega]
      exact htot'
    rcases acc with _ | f
    · obtain ⟨r, hr, hrl, hrn⟩ := ih (i + 1)
        (some (List.zipWith (fun a b => a + b) st ns)) hshift
        (fun f hf => by injection hf with hf'; rw [← hf']; exact hfct)
      refine ⟨r, hr, hrl, fun hrnone => absurd (hrn hrnone).1 (by simp)⟩
    · obtain ⟨r, hr, hrl, hrn⟩ := ih (i + 1)
        (some (List.zipWith (fun a b => a + b) f
          (List.zipWith (fun a b => a + b) st ns))) hshift
        (fun f' hf' => by
          injection hf' with hf''
          rw [← hf'', List.length_zipWith, hfct, hacc f rfl]
          simp)
      refine ⟨r, hr, hrl, fun hrnone => absurd (hrn hrnone).1 (by simp)⟩

/-- Under the well-formedness hypotheses, one simulated election succeeds
and returns exactly `vote_for_n` winners, each a valid candidate index. -/
theorem compute_winner_ok {RS : Type} (A : RNG RS) (sts : List (List Nat))
    (tots : List Nat) (vfn : Nat) (seed : Int) (names : List String)
    (hseed : 0 ≤ seed) (hne : sts ≠ []) (hlen : sts.length = tots.length)
    (hc : ∀ st ∈ sts, st.length = names.length)
    (hsum : ∀ j st tot, sts.get? j = some st → tots.get? j = some tot → st.sum ≤ tot)
    (hv1 : vfn ≠ 0) (hv2 : vfn ≤ names.length) :
    ∃ winners, compute_winner A sts tots vfn seed names = Except.ok winners ∧
      winners.length = vfn ∧ ∀ w ∈ winners, w < names.length := by
  have hwf : ∀ j st, sts.get? j = some st →
      st.length = names.length ∧
        ∃ tot, tots.get? (0 + j) = some tot ∧ st.sum ≤ tot := by
    intro j st hj
    have hmem : st ∈ sts := List.get?_mem hj
    have hjlt : j < sts.length := by
      rcases List.get?_eq_some.mp hj with ⟨hh, _⟩
      exact hh
    have hjlt' : j < tots.length := by omega
    have htot : tots.get? j = some (tots.get ⟨j, hjlt'⟩) := List.get?_eq_get hjlt'
    refine ⟨hc st hmem, tots.get ⟨j, hjlt'⟩, by rw [Nat.zero_add]; exact htot,
      hsum j st _ hj htot⟩
  obtain ⟨r, hr, hrl, hrn⟩ := countyFold_ok A seed hseed tots names.length sts 0 none
    hwf (fun f hf => by cases hf)
  rcases r with _ | ft
  · obtain ⟨_, hsts⟩ := hrn rfl
    exact absurd hsts hne
  · have hftl : ft.length = names.length := hrl ft rfl
    rw [compute_winner, hr]
    simp only []
    refine ⟨_, rfl, ?_, ?_⟩
    · rw [plurality_winner]
      simp only [if_neg hv1]
      rw [List.length_map, List.length_drop, length_sortByCount, List.length_map,
        List.length_range, hftl]
      omega
    · intro w hw
      rw [plurality_winner] at hw
      simp only [if_neg hv1, List.mem_map] at hw
      obtain ⟨pair, hpair, hpw⟩ := hw
      have hpair' : pair ∈ sortByCount ((List.range ft.length).map
          (fun k => (k, ft.getD k 0))) := List.mem_of_mem_drop hpair
      rw [mem_sortByCount] at hpair'
      obtain ⟨k, hk, hkp⟩ := List.mem_map.mp hpair'
      rw [List.mem_range] at hk
      rw [← hpw, ← hkp]
      simpa [hftl] using hk

theorem bumpAt_ok :
    ∀ (wc : List Nat) (i : Nat), i < wc.length →
      ∃ wc', bumpAt wc i = Except.ok wc' ∧ wc'.length = wc.length ∧
        wc'.sum = wc.sum + 1 := by
  intro wc
  induction wc with
  | nil =>
    intro i hi
    simp at hi
  | cons x xs ih =>
    intro i hi
    cases i with
    | zero =>
      refine ⟨(x + 1) :: xs, rfl, by simp, ?_⟩
      simp only [List.sum_cons]
      omega
    | succ n =>
      have hn : n < xs.length := by simpa using hi
      obtain ⟨ys, hys, hysl, hyss⟩ := ih n hn
      rw [bumpAt, hys]
      refine ⟨x :: ys, rfl, by simp [hysl], ?_⟩
      simp only [List.sum_cons, hyss]
      omega

theorem recordWins_ok :
    ∀ (ws : List Nat) (wc : List Nat), (∀ w ∈ ws, w + 1 < wc.length) →
      ∃ wc', recordWins wc ws = Except.ok wc' ∧ wc'.length = wc.length ∧
        wc'.sum = wc.sum + ws.length := by
  intro ws
  induction ws with
  | nil =>
    intro wc _
    exact ⟨wc, rfl, rfl, by simp⟩
  | cons w ws ih =>
    intro wc hb
    obtain ⟨wc1, hwc1, hl1, hs1⟩ := bumpAt_ok wc (w + 1)
      (hb w (List.mem_cons_self _ _))
    rw [recordWins, hwc1]
    simp only []
    obtain ⟨wc2, hwc2, hl2, hs2⟩ := ih wc1
      (fun w' hw' => by rw [hl1]; exact hb w' (List.mem_cons_of_mem _ hw'))
    refine ⟨wc2, hwc2, by rw [hl2, hl1], ?_⟩
    rw [hs2, hs1]
    simp only [List.length_cons]
    omega

/-- Each trial adds exactly `vote_for_n` wins to the counters and preserves
their length, for any list of trial indices. -/
theorem trialLoop_ok {RS : Type} (A : RNG RS) (sts : List (List Nat))
    (tots : List Nat) (seed : Int) (names : List String) (vfn : Nat)
    (hseed : 0 ≤ seed) (hne : sts ≠ []) (hlen : sts.length = tots.length)
    (hc : ∀ st ∈ sts, st.length = names.length)
    (hsum : ∀ j st tot, sts.get? j = some st → tots.get? j = some tot → st.sum ≤ tot)
    (hv1 : vfn ≠ 0) (hv2 : vfn ≤ names.length) :
    ∀ (trials : List Nat) (wc : List Nat), wc.length = 1 + names.length →
      ∃ wc', trialLoop A sts tots seed names vfn trials wc = Except.ok wc' ∧
        wc'.length = 1 + names.length ∧
        wc'.sum = wc.sum + trials.length * vfn := by
  intro trials
  induction trials with
  | nil =>
    intro wc hwc
    exact ⟨wc, rfl, hwc, by simp⟩
  | cons i rest ih =>
    intro wc hwc
    have hseedi : 0 ≤ seed + (i : Int) * 314159265 := by
      have h1 : (0 : Int) ≤ (i : Int) * 314159265 :=
        mul_nonneg (Int.ofNat_nonneg i) (by norm_num)
      omega
    obtain ⟨winners, hwin, hwl, hwlt⟩ := compute_winner_ok A sts tots vfn
      (seed + (i : Int) * 314159265) names hseedi hne hlen hc hsum hv1 hv2
    rw [trialLoop, hwin]
    simp only []
    obtain ⟨wc1, hwc1, hl1, hs1⟩ := recordWins_ok winners wc
      (fun w hw => by rw [hwc]; have := hwlt w hw; omega)
    rw [hwc1]
    simp only []
    obtain ⟨wc2, hwc2, hl2, hs2⟩ := ih wc1 (by rw [hl1, hwc])
    refine ⟨wc2, hwc2, hl2, ?_⟩
    rw [hs2, hs1, hwl]
    simp only [List.length_cons]
    ring

/-- A county whose sample exceeds its declared total makes the county loop
raise `ValueError`, regardless of the seed (a negative seed raises the
`ValueError` of `convert_int_to_32_bit_numpy_array` even earlier). -/
theorem countyFold_err {RS : Type} (A : RNG RS) (seed : Int) (tots : List Nat) :
    ∀ (sts : List (List Nat)) (i : Nat) (acc : Option (List Nat)),
      (∃ j st tot, sts.get? j = some st ∧ tots.get? (i + j) = some tot ∧
        tot < st.sum) →
      countyFold A seed tots sts i acc = Except.error BPError.valueError := by
  intro sts
  induction sts with
  | nil =>
    intro i acc hbad
    obtain ⟨j, st, tot, hj, _, _⟩ := hbad
    cases hj
  | cons st0 rest ih =>
    intro i acc hbad
    obtain ⟨j, st, tot, hj, htot, hlt⟩ := hbad
    rw [countyFold]
    cases j with
    | zero =>
      injection hj with hj'
      rw [show i + 0 = i from rfl] at htot
      rw [htot]
      simp only []
      rw [generate_nonsample_tally, create_rs]
      by_cases hs : seed < 0
      · rw [if_pos hs]
      · rw [if_neg hs]
        simp only []
        rw [dirichlet_multinomial, if_pos (by rw [hj']; exact hlt)]
    | succ n =>
      have hjlt : i + (n + 1) < tots.length := by
        rcases List.get?_eq_some.mp htot with ⟨hh, _⟩
        exact hh
      have hilt : i < tots.length := by omega
      rw [List.get?_eq_get hilt]
      simp only []
      rw [generate_nonsample_tally, create_rs]
      by_cases hs : seed < 0
      · rw [if_pos hs]
      · rw [if_neg hs]
        simp only []
        by_cases hbad0 : tots.get ⟨i, hilt⟩ < st0.sum
        · rw [dirichlet_multinomial, if_pos hbad0]
        · obtain ⟨r, hr, _⟩ := dirichlet_multinomial_ok A st0 (tots.get ⟨i, hilt⟩)
            (A.randomState seed.toNat) (by omega)
          rw [hr]
          simp only []
          apply ih
          refine ⟨n, st, tot, hj, ?_, hlt⟩
          rw [show i + 1 + n = i + (n + 1) from by omega]
          exact htot

end Bptool

namespace Bptool

/-- C1: `compute_win_probs` is deterministic — two runs with identical
inputs (sample tallies, totals, integer seed, trial count, candidate
names, `vote_for_n`) over the same deterministic `RandomState`
implementation produce identical win-probability lists.  The embedding is a
pure function of these inputs because the code derives every trial's
generator from the explicit seed `seed + i*314159265` and touches no other
state. -/
theorem compute_win_probs_deterministic {RS : Type} (A : RNG RS)
    (st1 st2 : List (List Nat)) (tv1 tv2 : List Nat) (s1 s2 : Int)
    (n1 n2 : Nat) (cn1 cn2 : List String) (v1 v2 : Nat)
    (hst : st1 = st2) (htv : tv1 = tv2) (hs : s1 = s2) (hn : n1 = n2)
    (hcn : cn1 = cn2) (hv : v1 = v2) :
    compute_win_probs A st1 tv1 s1 n1 cn1 v1
      = compute_win_probs A st2 tv2 s2 n2 cn2 v2 := by
  rw [hst, htv, hs, hn, hcn, hv]

/-- C1 (witness): two runs on the same concrete input agree. -/
theorem compute_win_probs_deterministic_witness :
    compute_win_probs unitRNG [[1, 2]] [10] 7 3 ["A", "B"] 1
      = compute_win_probs unitRNG [[1, 2]] [10] 7 3 ["A", "B"] 1 :=
  compute_win_probs_deterministic unitRNG [[1, 2]] [[1, 2]] [10] [10] 7 7 3 3
    ["A", "B"] ["A", "B"] 1 1 rfl rfl rfl rfl rfl rfl

/-- C6 (amended): under the well-formedness hypotheses (non-negative seed,
at least one trial, at least one county, matching list lengths, sample
sums within totals, and `1 ≤ vote_for_n ≤ number of candidates`), the trial
loop succeeds, the total of recorded win counts equals
`num_trials * vote_for_n` (each trial yields exactly `vote_for_n` winners),
and each candidate's reported win probability is its win count divided by
`num_trials`. -/
theorem compute_win_probs_spec {RS : Type} (A : RNG RS)
    (sts : List (List Nat)) (tots : List Nat) (seed : Int) (nt : Nat)
    (names : List String) (vfn : Nat)
    (hseed : 0 ≤ seed) (hnt : 1 ≤ nt) (hne : sts ≠ [])
    (hlen : sts.length = tots.length)
    (hc : ∀ st ∈ sts, st.length = names.length)
    (hsum : ∀ j st tot, sts.get? j = some st → tots.get? j = some tot →
      st.sum ≤ tot)
    (hv1 : 1 ≤ vfn) (hv2 : vfn ≤ names.length) :
    ∃ wc, trialLoop A sts tots seed names vfn (List.range nt)
        (List.replicate (1 + names.length) 0) = Except.ok wc
      ∧ wc.sum = nt * vfn
      ∧ compute_win_probs A sts tots seed nt names vfn
          = Except.ok (((List.range (1 + names.length)).drop 1).map
              (fun i => (i, (wc.getD i 0 : Rat) / (nt : Rat)))) := by
  obtain ⟨wc, hwc, hwcl, hwcs⟩ := trialLoop_ok A sts tots seed names vfn hseed
    hne hlen hc hsum (by omega) hv2 (List.range nt)
    (List.replicate (1 + names.length) 0) (by simp)
  refine ⟨wc, hwc, ?_, ?_⟩
  · rw [hwcs]
    simp
  · rw [compute_win_probs, hwc]
    simp only []
    rw [hwcl]

/-- C6 (counterexample to the claim as stated): with `vote_for_n = 2`,
two candidates and a single trial, each trial records two wins, so the
total of recorded win counts is `2`, not `num_trials = 1`. -/
theorem compute_win_probs_total_cex :
    trialLoop unitRNG [[0, 0]] [2] 0 ["p", "q"] 2 (List.range 1)
        (List.replicate 3 0) = Except.ok [0, 1, 1]
      ∧ ([0, 1, 1] : List Nat).sum ≠ 1 := by
  constructor
  · decide
  · decide

/-- C6 (witness): one county, two candidates, one trial, `vote_for_n = 1`:
the trial loop succeeds, total wins are `1 * 1`, and the reported
probabilities are the counts divided by the trial count. -/
theorem compute_win_probs_spec_witness :
    ∃ wc, trialLoop unitRNG [[0, 0]] [2] 0 ["p", "q"] 1 (List.range 1)
        (List.replicate (1 + 2) 0) = Except.ok wc
      ∧ wc.sum = 1 * 1
      ∧ compute_win_probs unitRNG [[0, 0]] [2] 0 1 ["p", "q"] 1
          = Except.ok (((List.range (1 + 2)).drop 1).map
              (fun i => (i, (wc.getD i 0 : Rat) / (1 : Rat)))) :=
  compute_win_probs_spec unitRNG [[0, 0]] [2] 0 1 ["p", "q"] 1
    (by norm_num) (by norm_num) (by simp) (by simp)
    (by intro st hst; simp at hst; rw [hst]; rfl)
    (by
      intro j st tot hj ht
      cases j with
      | zero =>
        injection hj with hj'
        injection ht with ht'
        rw [← hj', ← ht']
        decide
      | succ n => cases hj)
    (by norm_num) (by norm_num)

/-- C7: with at least one trial and matching list lengths, a jurisdiction
whose sample tally sums to more than its declared total ballots cast makes
`compute_win_probs` raise `ValueError` (the spec's `InvalidInput`) and
produce no partial result — the first trial aborts the whole run. -/
theorem compute_win_probs_invalid_input {RS : Type} (A : RNG RS)
    (sts : List (List Nat)) (tots : List Nat) (seed : Int) (nt : Nat)
    (names : List String) (vfn : Nat)
    (hnt : 1 ≤ nt)
    (hbad : ∃ j st tot, sts.get? j = some st ∧ tots.get? j = some tot ∧
      tot < st.sum) :
    compute_win_probs A sts tots seed nt names vfn
      = Except.error BPError.valueError := by
  obtain ⟨m, hm⟩ : ∃ m, nt = m + 1 := ⟨nt - 1, by omega⟩
  have hcw : compute_winner A sts tots vfn
      (seed + ((0 : Nat) : Int) * 314159265) names
      = Except.error BPError.valueError := by
    rw [compute_winner]
    have herr := countyFold_err A (seed + ((0 : Nat) : Int) * 314159265) tots sts 0 none
      (by
        obtain ⟨j, st, tot, hj, ht, hlt⟩ := hbad
        exact ⟨j, st, tot, hj, by rw [Nat.zero_add]; exact ht, hlt⟩)
    rw [herr]
  rw [compute_win_probs, hm, List.range_succ_eq_map, trialLoop, hcw]

/-- C7 (witness): a single county with sample `[5]` against a declared
total of `3` aborts with `ValueError`. -/
theorem compute_win_probs_invalid_input_witness :
    compute_win_probs unitRNG [[5]] [3] 0 1 ["p"] 1
      = Except.error BPError.valueError :=
  compute_win_probs_invalid_input unitRNG [[5]] [3] 0 1 ["p"] 1 (by norm_num)
    ⟨0, [5], 3, rfl, rfl, by decide⟩

end Bptool
